import Mathlib

/-!
# Verification of the decoding core of `src/main.py`

A shallow embedding of the sampling/decoding core of the repository:
`top_k_top_p_filtering` (top-k and nucleus filtering of a logit vector)
and `generate` (the token-by-token generation loop).

Modelling conventions:

* A logit value is a rational number extended with a bottom element `⊥`
  standing for the floating `-inf` sentinel (`filter_value = -float('Inf')`
  in the source).  Exact rational arithmetic replaces floating point.
* The exponential inside `F.softmax` is abstracted as a parameter
  `pexp : ℚ → ℚ`; every theorem that touches softmax assumes only that
  `pexp` is strictly positive, the one property of `exp` the filtering
  logic relies on.  `eexp` extends `pexp` to `⊥` by `0`, matching
  `exp(-inf) = 0.0`.
* `torch.sort(logits, descending=True)` is realised by sorting the
  `(value, index)` pairs with the larger value first and ties broken by
  the smaller original index; this fixes one concrete permutation among
  those the source could return.
* The model and the multinomial sampler are external capabilities and
  enter the embedding as function parameters; the theorems state the
  exact assumptions made about them.
-/

namespace TextGen

/-- Logit values: rationals extended with `⊥`, the `-inf` filter sentinel. -/
abbrev Logit : Type := WithBot ℚ

/-- A vector of finite (real-valued) logits viewed as extended logits;
per the data model a `LogitVector` produced by the model is a vector of
plain reals, the sentinel only ever enters through filtering. -/
def toLogits (l : List ℚ) : List Logit :=
  l.map (fun q : ℚ => (q : Logit))

/-- The abstract exponential `pexp` extended to `⊥` by `0`,
matching `exp(-inf) = 0.0` in the source's softmax. -/
def eexp (pexp : ℚ → ℚ) : Logit → ℚ :=
  WithBot.recBotCoe 0 pexp

/-- `F.softmax(l, dim=-1)`: each entry is its (extended) exponential divided
by the sum of all the exponentials of the vector. -/
def softmax (pexp : ℚ → ℚ) (l : List Logit) : List ℚ :=
  l.map (fun x => eexp pexp x / (l.map (eexp pexp)).sum)

/-- Descending order on `(value, original index)` pairs: larger logit first,
ties broken by the smaller original index.  This is the comparison realised
by `torch.sort(logits, descending=True)`, made deterministic. -/
def pairGE (a b : Logit × ℕ) : Prop :=
  b.1 < a.1 ∨ (a.1 = b.1 ∧ a.2 ≤ b.2)

instance : DecidableRel pairGE := fun a b =>
  inferInstanceAs (Decidable (_ ∨ _))

/-- The `(value, index)` pairs of a logit vector, in vector order. -/
def pairsOf (l : List Logit) : List (Logit × ℕ) :=
  l.enum.map (fun p => (p.2, p.1))

/-- `torch.sort(logits, descending=True)`: the `(value, index)` pairs in
descending value order (ties by ascending index). -/
def sortPairs (l : List Logit) : List (Logit × ℕ) :=
  (pairsOf l).insertionSort pairGE

/-- `sorted_logits` of the source: the values in descending order. -/
def sortedVals (l : List Logit) : List Logit :=
  (sortPairs l).map Prod.fst

/-- `sorted_indices` of the source. -/
def sortedIdx (l : List Logit) : List ℕ :=
  (sortPairs l).map Prod.snd

/-- `torch.topk(logits, k)[0][..., -1]`: the k-th largest entry (1-based). -/
def kthLargest (l : List Logit) (k : ℕ) : Logit :=
  (sortedVals l).getD (k - 1) ⊥

/-- Lines 21-25 of `src/main.py`: clamp `top_k` to the vector length; when
positive, replace every entry strictly below the k-th largest value by
`filter_value` (ties with the threshold are kept). -/
def topKFilter (logits : List Logit) (top_k : ℕ) (fv : Logit) : List Logit :=
  let k := min top_k logits.length
  if 0 < k then
    logits.map (fun x => if x < kthLargest logits k then fv else x)
  else logits

/-- The removal mask of lines 32-35, after the right shift and the forced
`sorted_indices_to_remove[..., 0] = 0`: sorted position `i` is marked for
removal iff `i ≠ 0` and the cumulative probability of the first `i` sorted
entries (`cumulative_probs[i-1]`) exceeds `top_p`. -/
def maskedPos (pexp : ℚ → ℚ) (l : List Logit) (p : ℚ) (i : ℕ) : Prop :=
  i ≠ 0 ∧ p < ((softmax pexp (sortedVals l)).take i).sum

instance (pexp : ℚ → ℚ) (l : List Logit) (p : ℚ) (i : ℕ) :
    Decidable (maskedPos pexp l p i) := by
  unfold maskedPos; infer_instance

/-- `indices_to_remove = sorted_indices[sorted_indices_to_remove]`: the
original indices sitting at masked sorted positions. -/
def removedIdxs (pexp : ℚ → ℚ) (l : List Logit) (p : ℚ) : List ℕ :=
  ((sortPairs l).enum.filter
    (fun q => decide (maskedPos pexp l p q.1))).map (fun q => q.2.2)

/-- Lines 27-38 of `src/main.py`: when `top_p > 0`, set the entries at the
removed indices to `filter_value`. -/
def topPFilter (pexp : ℚ → ℚ) (l : List Logit) (top_p : ℚ) (fv : Logit) :
    List Logit :=
  if 0 < top_p then
    l.enum.map (fun q => if q.1 ∈ removedIdxs pexp l top_p then fv else q.2)
  else l

/-- `top_k_top_p_filtering` of `src/main.py` (lines 9-39): top-k first, then
nucleus filtering on the already-filtered vector. -/
def top_k_top_p_filtering (pexp : ℚ → ℚ) (logits : List Logit)
    (top_k : ℕ) (top_p : ℚ) (fv : Logit) : List Logit :=
  topPFilter pexp (topKFilter logits top_k fv) top_p fv

/-- Line 52-53, `next_token_logits[ids] /= repitition_penalty` for a tensor
`ids` of (possibly repeated) indices: gather the current values, divide each
gathered value once by the penalty, then scatter the quotients back; writes
at duplicated indices all store the same quotient. -/
def scatterDiv (l : List ℚ) (idxs : List ℕ) (c : ℚ) : List ℚ :=
  (idxs.map (fun i => (i, l.getD i 0 / c))).foldl
    (fun acc q => acc.set q.1 q.2) l

/-- Line 49, `generated[0][-(n_ctx - 1):]`: the Python slice keeping the last
`n_ctx - 1` elements.  When `n_ctx - 1 = 0` the slice bound is `-0 = 0`, so
the whole sequence is kept. -/
def contextWindow (n_ctx : ℕ) (seq : List ℕ) : List ℕ :=
  if n_ctx - 1 = 0 then seq else seq.drop (seq.length - (n_ctx - 1))

/-- The per-run parameters of `generate` (lines 42-59).  `unkId` is
`tokenizer.convert_tokens_to_ids('[UNK]')`, resolved by the tokenizer. -/
structure GenConfig where
  length : ℕ
  n_ctx : ℕ
  temperature : ℚ
  top_k : ℕ
  top_p : ℚ
  repitition_penalty : ℚ
  unkId : ℕ

/-- One iteration of the loop in `generate` (lines 48-58): window the
sequence, query the model, apply the repetition penalty to every token id
occurring in the sequence, scale by temperature, force the `[UNK]` logit to
`-inf`, filter, softmax, sample one token and append it. -/
def generateStep (pexp : ℚ → ℚ) (model : List ℕ → List ℚ)
    (sampler : List ℚ → ℕ) (cfg : GenConfig) (seq : List ℕ) : List ℕ :=
  let ctx := contextWindow cfg.n_ctx seq
  let next_token_logits := model ctx
  let l1 := scatterDiv next_token_logits seq cfg.repitition_penalty
  let l2 := l1.map (fun q => q / cfg.temperature)
  let l3 := (toLogits l2).set cfg.unkId ⊥
  let filtered_logits :=
    top_k_top_p_filtering pexp l3 cfg.top_k cfg.top_p ⊥
  seq ++ [sampler (softmax pexp filtered_logits)]

/-- `generate` (lines 42-59): iterate the loop body exactly `length` times
starting from the prefix; there is no early stopping. -/
def generate (pexp : ℚ → ℚ) (model : List ℕ → List ℚ)
    (sampler : List ℚ → ℕ) (cfg : GenConfig) (context : List ℕ) : List ℕ :=
  (generateStep pexp model sampler cfg)^[cfg.length] context

/-! ## Basic structural lemmas -/

theorem generateStep_eq (pexp : ℚ → ℚ) (model : List ℕ → List ℚ)
    (sampler : List ℚ → ℕ) (cfg : GenConfig) (seq : List ℕ) :
    ∃ t : ℕ, generateStep pexp model sampler cfg seq = seq ++ [t] :=
  ⟨_, rfl⟩

theorem generate_iterate_append (pexp : ℚ → ℚ) (model : List ℕ → List ℚ)
    (sampler : List ℚ → ℕ) (cfg : GenConfig) (seq : List ℕ) (t : ℕ) :
    ∃ tail : List ℕ,
      (generateStep pexp model sampler cfg)^[t] seq = seq ++ tail ∧
      tail.length = t := by
  induction t with
  | zero => exact ⟨[], by simp⟩
  | succ n ih =>
    obtain ⟨tail, htail, hlen⟩ := ih
    obtain ⟨tok, htok⟩ := generateStep_eq pexp model sampler cfg (seq ++ tail)
    refine ⟨tail ++ [tok], ?_, by simp [hlen]⟩
    rw [Function.iterate_succ_apply', htail, htok, List.append_assoc]

/-! ## C1: sequence growth -/

/-- C1: `generate` on a prefix of length `m` with `config.length = L` returns
a sequence of length exactly `m + L` whose first `m` elements are the prefix
unchanged; each loop iteration appends exactly one token and the loop runs
exactly `L` steps with no early stopping. -/
theorem C1_sequence_growth (pexp : ℚ → ℚ) (model : List ℕ → List ℚ)
    (sampler : List ℚ → ℕ) (cfg : GenConfig) (context : List ℕ) :
    (generate pexp model sampler cfg context).length
        = context.length + cfg.length ∧
    (generate pexp model sampler cfg context).take context.length = context ∧
    ∀ t : ℕ,
      ((generateStep pexp model sampler cfg)^[t + 1] context).length
        = ((generateStep pexp model sampler cfg)^[t] context).length + 1 := by
  obtain ⟨tail, htail, hlen⟩ :=
    generate_iterate_append pexp model sampler cfg context cfg.length
  refine ⟨?_, ?_, ?_⟩
  · rw [generate, htail]; simp [hlen]
  · rw [generate, htail, List.take_left]
  · intro t
    rw [Function.iterate_succ_apply']
    obtain ⟨tok, htok⟩ := generateStep_eq pexp model sampler cfg
      ((generateStep pexp model sampler cfg)^[t] context)
    rw [htok]; simp

/-! ## C4: the context window -/

/-- C4 (counterexample): with `n_ctx = 1` — a positive integer — the slice
`generated[0][-(n_ctx-1):]` is `[-0:]`, i.e. the whole sequence, so the
context passed to the model has length `1 > n_ctx - 1 = 0`. -/
theorem C4_counterexample :
    0 < 1 ∧ contextWindow 1 [5] = [5] ∧
      ¬ ((contextWindow 1 [5]).length ≤ 1 - 1) := by
  refine ⟨Nat.one_pos, rfl, by decide⟩

/-- C4 (amended): for every `n_ctx ≥ 2`, the context passed to the model is
the last `n_ctx - 1` tokens of the current sequence — the whole sequence when
it is shorter — and in particular never exceeds `n_ctx - 1` tokens.  (For
`n_ctx = 1` the Python slice bound `-0` keeps the whole sequence instead.) -/
theorem C4_window (n_ctx : ℕ) (hn : 2 ≤ n_ctx) (seq : List ℕ) :
    (contextWindow n_ctx seq).length ≤ n_ctx - 1 ∧
    contextWindow n_ctx seq <:+ seq ∧
    (seq.length ≤ n_ctx - 1 → contextWindow n_ctx seq = seq) ∧
    (n_ctx - 1 ≤ seq.length →
      (contextWindow n_ctx seq).length = n_ctx - 1) := by
  have hpos : n_ctx - 1 ≠ 0 := by omega
  rw [contextWindow, if_neg hpos]
  refine ⟨?_, List.drop_suffix _ _, ?_, ?_⟩
  · rw [List.length_drop]; omega
  · intro h
    have : seq.length - (n_ctx - 1) = 0 := by omega
    rw [this, List.drop_zero]
  · intro h
    rw [List.length_drop]; omega

theorem C4_window_witness :
    (2 ≤ 4) ∧ (contextWindow 4 [10, 11, 12, 13, 14]).length ≤ 4 - 1 := by
  exact ⟨by decide, (C4_window 4 (by decide) [10, 11, 12, 13, 14]).1⟩

/-! ## C9: there is no configuration validation -/

/-- C9 (counterexample): `length = 0` is an invalid configuration according
to the claim (`length <= 0`), yet `generate` does not fail: the loop body
runs zero times and the prefix is returned as a normal result. -/
theorem C9_counterexample :
    generate (fun _ => 1) (fun _ => [1, 1]) (fun _ => 0)
      ⟨0, 4, 1, 0, 0, 1, 0⟩ [7] = [7] := rfl

/-- C9 (amended): `generate` performs no configuration validation and has no
failure path; in particular with `length = 0` it silently returns the prefix
unchanged instead of raising `InvalidConfig`. -/
theorem C9_no_validation (pexp : ℚ → ℚ) (model : List ℕ → List ℚ)
    (sampler : List ℚ → ℕ) (cfg : GenConfig) (context : List ℕ)
    (h : cfg.length = 0) :
    generate pexp model sampler cfg context = context := by
  rw [generate, h]; rfl

theorem C9_no_validation_witness :
    (GenConfig.mk 0 4 1 0 0 1 0).length = 0 ∧
      generate (fun _ => 1) (fun _ => [1, 1]) (fun _ => 0)
        ⟨0, 4, 1, 0, 0, 1, 0⟩ [3] = [3] := by
  exact ⟨rfl, C9_no_validation _ _ _ _ [3] rfl⟩

/-! ## C6: repetition penalty via gather/divide/scatter -/

theorem scatterDiv_core (f : ℕ → ℚ) (idxs : List ℕ) (acc : List ℚ) (j : ℕ) :
    ((idxs.map (fun i => (i, f i))).foldl
        (fun a q => a.set q.1 q.2) acc).getD j 0
      = if j ∈ idxs then (if j < acc.length then f j else 0)
        else acc.getD j 0 := by
  induction idxs generalizing acc with
  | nil => simp
  | cons i rest ih =>
    simp only [List.map_cons, List.foldl_cons]
    rw [ih]
    by_cases hjr : j ∈ rest
    · simp [hjr, List.mem_cons]
    · by_cases hji : j = i
      · subst hji
        by_cases hlt : j < acc.length
        · simp only [hjr, if_false, List.mem_cons, true_or, if_pos rfl,
            if_pos hlt]
          rw [List.getD_eq_getElem?_getD, List.getElem?_set_self
            (by simpa using hlt)]
          simp
        · rw [List.set_eq_of_length_le (by omega)]
          simp only [hjr, if_false, List.mem_cons, true_or, if_pos rfl,
            if_neg hlt]
          rw [List.getD_eq_getElem?_getD, List.getElem?_eq_none (by omega)]
          rfl
      · have : ¬ j ∈ i :: rest := by simp [hji, hjr]
        simp only [hjr, if_false, this]
        rw [List.getD_eq_getElem?_getD, List.getD_eq_getElem?_getD,
          List.getElem?_set_ne (by omega)]

/-- C6: the in-place fancy-indexed division divides the logit of every token
id present in the sequence by the penalty exactly once — duplicate
occurrences of an id do not divide again, because the scattered values are
all gathered from the original vector — and leaves every other entry
unchanged.  (`generateStep` applies `scatterDiv` to the whole current
sequence.) -/
theorem C6_repetition_penalty (l : List ℚ) (idxs : List ℕ) (c : ℚ) (j : ℕ) :
    (scatterDiv l idxs c).getD j 0
      = if j ∈ idxs then l.getD j 0 / c else l.getD j 0 := by
  rw [scatterDiv, scatterDiv_core (fun i => l.getD i 0 / c) idxs l j]
  by_cases hj : j ∈ idxs
  · simp only [hj, if_true]
    by_cases hlt : j < l.length
    · rw [if_pos hlt]
    · rw [if_neg hlt, List.getD_eq_getElem?_getD,
        List.getElem?_eq_none (by omega)]
      simp
  · simp [hj]

/-! ## Sorting infrastructure -/

instance : IsTotal (Logit × ℕ) pairGE :=
  ⟨fun a b => by
    rcases lt_trichotomy a.1 b.1 with h | h | h
    · rcases le_total b.2 a.2 with h2 | h2
      · exact Or.inr (Or.inl h)
      · exact Or.inr (Or.inl h)
    · rcases le_total a.2 b.2 with h2 | h2
      · exact Or.inl (Or.inr ⟨h, h2⟩)
      · exact Or.inr (Or.inr ⟨h.symm, h2⟩)
    · exact Or.inl (Or.inl h)⟩

instance : IsTrans (Logit × ℕ) pairGE :=
  ⟨fun a b c hab hbc => by
    rcases hab with h1 | ⟨h1, h1'⟩ <;> rcases hbc with h2 | ⟨h2, h2'⟩
    · exact Or.inl (h2.trans h1)
    · exact Or.inl (h2 ▸ h1)
    · exact Or.inl (h1 ▸ h2)
    · exact Or.inr ⟨h1.trans h2, h1'.trans h2'⟩⟩

instance : IsAntisymm (Logit × ℕ) pairGE :=
  ⟨fun a b hab hba => by
    rcases hab with h1 | ⟨h1, h1'⟩ <;> rcases hba with h2 | ⟨h2, h2'⟩
    · exact absurd (h1.trans h2) (lt_irrefl _)
    · exact absurd h1 (h2 ▸ lt_irrefl _)
    · exact absurd h2 (h1 ▸ lt_irrefl _)
    · exact Prod.ext h1 (le_antisymm h1' h2')⟩

theorem pairsOf_length (l : List Logit) : (pairsOf l).length = l.length := by
  simp [pairsOf]

theorem pairsOf_getElem (l : List Logit) (i : ℕ) (h : i < (pairsOf l).length) :
    (pairsOf l)[i] = (l.get ⟨i, by simpa [pairsOf_length] using h⟩, i) := by
  have hi : i < l.length := by simpa [pairsOf_length] using h
  simp [pairsOf, List.getElem_map, List.getElem_enum, List.get_eq_getElem]

theorem pairsOf_eq_range_map (l : List Logit) :
    pairsOf l = (List.range l.length).map (fun i => (l.getD i ⊥, i)) := by
  apply List.ext_get
  · simp [pairsOf_length]
  · intro n h1 h2
    have hn : n < l.length := by simpa [pairsOf_length] using h1
    simp only [List.get_eq_getElem, pairsOf_getElem, List.getElem_map,
      List.getElem_range]
    rw [List.getD_eq_getElem?_getD, List.getElem?_eq_getElem hn]
    rfl

theorem sortPairs_perm (l : List Logit) : (sortPairs l).Perm (pairsOf l) :=
  List.perm_insertionSort pairGE (pairsOf l)

theorem sortPairs_sorted (l : List Logit) :
    List.Sorted pairGE (sortPairs l) :=
  List.sorted_insertionSort pairGE (pairsOf l)

theorem sortPairs_length (l : List Logit) :
    (sortPairs l).length = l.length :=
  ((sortPairs_perm l).length_eq).trans (pairsOf_length l)

theorem sortedVals_length (l : List Logit) :
    (sortedVals l).length = l.length := by
  simp [sortedVals, sortPairs_length]

theorem sortedIdx_perm_range (l : List Logit) :
    (sortedIdx l).Perm (List.range l.length) := by
  have h1 : (sortedIdx l).Perm ((pairsOf l).map Prod.snd) :=
    (sortPairs_perm l).map Prod.snd
  refine h1.trans ?_
  rw [pairsOf_eq_range_map, List.map_map]
  have : (Prod.snd ∘ fun i => ((l.getD i ⊥ : Logit), i)) = id := rfl
  rw [this, List.map_id]

theorem sortedIdx_nodup (l : List Logit) : (sortedIdx l).Nodup :=
  (sortedIdx_perm_range l).nodup_iff.mpr (List.nodup_range _)

theorem sortedVals_perm (l : List Logit) : (sortedVals l).Perm l := by
  have h1 : (sortedVals l).Perm ((pairsOf l).map Prod.fst) :=
    (sortPairs_perm l).map Prod.fst
  refine h1.trans ?_
  rw [pairsOf_eq_range_map, List.map_map]
  have : ((List.range l.length).map
      ((fun pr : Logit × ℕ => pr.1) ∘ fun i => (l.getD i ⊥, i))) =
      (List.range l.length).map (fun i => l.getD i ⊥) := rfl
  rw [this]
  apply List.Perm.of_eq
  apply List.ext_get
  · simp
  · intro n h1 h2
    simp only [List.get_eq_getElem, List.getElem_map, List.getElem_range]
    rw [List.getD_eq_getElem?_getD,
      List.getElem?_eq_getElem (by simpa using h1)]
    rfl

/-- Every sorted pair records an actual entry of the vector. -/
theorem sortPairs_mem (l : List Logit) {pr : Logit × ℕ}
    (h : pr ∈ sortPairs l) :
    pr.2 < l.length ∧ l.getD pr.2 ⊥ = pr.1 := by
  have h1 : pr ∈ pairsOf l := (sortPairs_perm l).mem_iff.mp h
  rw [pairsOf_eq_range_map] at h1
  obtain ⟨i, hi, hpr⟩ := List.mem_map.mp h1
  have hi' : i < l.length := List.mem_range.mp hi
  cases hpr
  exact ⟨hi', rfl⟩

theorem mem_sortPairs (l : List Logit) (i : ℕ) (hi : i < l.length) :
    (l.getD i ⊥, i) ∈ sortPairs l := by
  rw [(sortPairs_perm l).mem_iff, pairsOf_eq_range_map]
  exact List.mem_map.mpr ⟨i, List.mem_range.mpr hi, rfl⟩

theorem sortedVals_getD (l : List Logit) (m : ℕ)
    (hm : m < (sortPairs l).length) :
    (sortedVals l).getD m ⊥ = ((sortPairs l).get ⟨m, hm⟩).1 := by
  rw [sortedVals, List.getD_eq_getElem?_getD,
    List.getElem?_eq_getElem (by simpa using hm)]
  simp

/-- The sorted values are descending position by position. -/
theorem sortedVals_anti (l : List Logit) (i j : ℕ) (hij : i ≤ j)
    (hj : j < l.length) :
    (sortedVals l).getD j ⊥ ≤ (sortedVals l).getD i ⊥ := by
  have hi : i < l.length := lt_of_le_of_lt hij hj
  have hj' : j < (sortPairs l).length := by rwa [sortPairs_length]
  have hi' : i < (sortPairs l).length := by rwa [sortPairs_length]
  rw [sortedVals_getD l i hi', sortedVals_getD l j hj']
  rcases Nat.lt_or_ge i j with hlt | hge
  · have hp := (List.pairwise_iff_get.mp (sortPairs_sorted l))
      ⟨i, hi'⟩ ⟨j, hj'⟩ hlt
    rcases hp with h | ⟨h, _⟩
    · exact le_of_lt h
    · exact le_of_eq h.symm
  · have : i = j := le_antisymm hij hge
    subst this; exact le_rfl

theorem topKFilter_length (l : List Logit) (k : ℕ) (fv : Logit) :
    (topKFilter l k fv).length = l.length := by
  rw [topKFilter]
  split <;> simp

theorem topKFilter_getD (l : List Logit) (k : ℕ) (fv : Logit)
    (hk : 0 < min k l.length) (j : ℕ) (hj : j < l.length) :
    (topKFilter l k fv).getD j ⊥ =
      if l.getD j ⊥ < kthLargest l (min k l.length) then fv
      else l.getD j ⊥ := by
  rw [topKFilter]
  simp only [if_pos hk]
  rw [List.getD_eq_getElem?_getD,
    List.getElem?_eq_getElem (by simpa using hj), List.getElem_map,
    List.getD_eq_getElem?_getD, List.getElem?_eq_getElem hj]
  rfl

/-! ## C7: the no-op case -/

/-- C7: with `top_k = 0` and `top_p = 0` the filter returns its input
unchanged, element for element. -/
theorem C7_noop (pexp : ℚ → ℚ) (l : List Logit) (fv : Logit) :
    top_k_top_p_filtering pexp l 0 0 fv = l := by
  rw [top_k_top_p_filtering, topKFilter, topPFilter]
  simp

/-! ## C2: the top-k invariant -/

theorem toLogits_length (l : List ℚ) : (toLogits l).length = l.length := by
  simp [toLogits]

theorem coe_getD (l : List ℚ) (i : ℕ) (hi : i < l.length) :
    (toLogits l).getD i ⊥ = ((l.getD i 0 : ℚ) : Logit) := by
  rw [toLogits, List.getD_eq_getElem?_getD,
    List.getElem?_eq_getElem (by simpa using hi),
    List.getElem_map, List.getD_eq_getElem?_getD, List.getElem?_eq_getElem hi]
  rfl

theorem top_k_only (pexp : ℚ → ℚ) (logits : List Logit) (top_k : ℕ)
    (fv : Logit) :
    top_k_top_p_filtering pexp logits top_k 0 fv = topKFilter logits top_k fv := by
  rw [top_k_top_p_filtering, topPFilter]
  simp

theorem take_count_ge (l : List Logit) (k : ℕ) (hk0 : 0 < k)
    (hkn : k ≤ l.length) (P : Logit × ℕ → Bool)
    (hP : ∀ pr : Logit × ℕ, kthLargest l k ≤ pr.1 → P pr = true)
    (hmono : ∀ pr : Logit × ℕ, P pr = true → kthLargest l k ≤ pr.1) :
    k ≤ (sortPairs l).countP P := by
  have hsp : k ≤ (sortPairs l).length := by rwa [sortPairs_length]
  have hsplit := List.take_append_drop k (sortPairs l)
  have hlen : ((sortPairs l).take k).length = k := by
    rw [List.length_take]; omega
  have hall : ∀ pr ∈ (sortPairs l).take k, P pr = true := by
    intro pr hpr
    obtain ⟨⟨pos, hpos⟩, hget⟩ := List.mem_iff_get.mp hpr
    have hposk : pos < k := by
      have := hpos; rwa [hlen] at this
    have hposn : pos < (sortPairs l).length := lt_of_lt_of_le hposk hsp
    have hgetval : pr.1 = ((sortPairs l).get ⟨pos, hposn⟩).1 := by
      rw [← hget]
      simp only [List.get_eq_getElem, List.getElem_take]
    apply hP
    rw [hgetval, ← sortedVals_getD l pos hposn, kthLargest]
    have hk1 : k - 1 < l.length := by omega
    exact sortedVals_anti l pos (k - 1) (by omega) hk1
  calc k = ((sortPairs l).take k).countP P := by
        rw [List.countP_eq_length.mpr hall, hlen]
    _ ≤ ((sortPairs l).take k).countP P + ((sortPairs l).drop k).countP P :=
        Nat.le_add_right _ _
    _ = (sortPairs l).countP P := by
        rw [← List.countP_append, hsplit]

/-- C2: with `0 < k ≤ vocabulary size` and `top_p = 0`, at least `k` entries
differ from the filter sentinel after filtering; exactly the entries strictly
below the k-th largest logit are replaced by the sentinel, ties with the
threshold are kept, and every retained entry is unchanged. -/
theorem C2_top_k_invariant (pexp : ℚ → ℚ) (l : List ℚ) (k : ℕ)
    (hk0 : 0 < k) (hkn : k ≤ l.length) :
    k ≤ ((List.range l.length).filter (fun i =>
        decide ((top_k_top_p_filtering pexp (toLogits l)
          k 0 ⊥).getD i ⊥ ≠ ⊥))).length ∧
    ∀ j, j < l.length →
      (top_k_top_p_filtering pexp (toLogits l) k 0 ⊥).getD j ⊥
        = if (toLogits l).getD j ⊥ < kthLargest (toLogits l) k then ⊥
          else (toLogits l).getD j ⊥ := by
  set lE : List Logit := toLogits l with hlE
  have hlen : lE.length = l.length := by simp [hlE, toLogits_length]
  have hminkk : min k lE.length = k := by omega
  have hres : ∀ j, j < l.length →
      (top_k_top_p_filtering pexp lE k 0 ⊥).getD j ⊥
        = if lE.getD j ⊥ < kthLargest lE k then ⊥ else lE.getD j ⊥ := by
    intro j hj
    rw [top_k_only, topKFilter_getD lE k ⊥ (by omega) j (by omega), hminkk]
  refine ⟨?_, hres⟩
  have hiff : ∀ i, i < l.length →
      ((top_k_top_p_filtering pexp lE k 0 ⊥).getD i ⊥ ≠ ⊥
        ↔ kthLargest lE k ≤ lE.getD i ⊥) := by
    intro i hi
    rw [hres i hi]
    by_cases hlt : lE.getD i ⊥ < kthLargest lE k
    · rw [if_pos hlt]
      exact iff_of_false (fun h => h rfl) (not_le.mpr hlt)
    · rw [if_neg hlt]
      have hne : lE.getD i ⊥ ≠ ⊥ := by
        rw [hlE, coe_getD l i hi]
        exact WithBot.coe_ne_bot
      exact iff_of_true hne (not_lt.mp hlt)
  have hfc : ((List.range l.length).filter (fun i =>
        decide ((top_k_top_p_filtering pexp lE k 0 ⊥).getD i ⊥ ≠ ⊥)))
      = ((List.range l.length).filter (fun i =>
        decide (kthLargest lE k ≤ lE.getD i ⊥))) := by
    apply List.filter_congr
    intro i hi
    have hi' : i < l.length := List.mem_range.mp hi
    simp only [decide_eq_decide]
    exact hiff i hi'
  rw [hfc, ← List.countP_eq_length_filter]
  set P : Logit × ℕ → Bool := fun pr => decide (kthLargest lE k ≤ pr.1)
    with hP
  have hcp : (List.range l.length).countP
      (fun i => decide (kthLargest lE k ≤ lE.getD i ⊥))
      = (pairsOf lE).countP P := by
    rw [pairsOf_eq_range_map, List.countP_map, hlen]
    rfl
  rw [hcp, ← (sortPairs_perm lE).countP_eq]
  apply take_count_ge lE k (by omega) (by omega) P
  · intro pr hpr
    simp [hP, hpr]
  · intro pr hpr
    simpa [hP] using hpr

theorem C2_top_k_invariant_witness :
    0 < 2 ∧ 2 ≤ ([1, 2, 3, 4, 1/2] : List ℚ).length ∧
    2 ≤ ((List.range ([1, 2, 3, 4, 1/2] : List ℚ).length).filter (fun i =>
        decide ((top_k_top_p_filtering (fun _ => 1)
          (toLogits [1, 2, 3, 4, 1/2]) 2 0 ⊥).getD i ⊥ ≠ ⊥))).length := by
  refine ⟨by decide, by decide, ?_⟩
  exact (C2_top_k_invariant (fun _ => 1) [1, 2, 3, 4, 1/2] 2
    (by decide) (by decide)).1

/-! ## Nucleus-filter characterisation -/

theorem enum_mem_iff {α : Type} (xs : List α) (q : ℕ × α) :
    q ∈ xs.enum ↔ ∃ h : q.1 < xs.length, xs.get ⟨q.1, h⟩ = q.2 := by
  constructor
  · intro hq
    obtain ⟨⟨pos, hpos⟩, hget⟩ := List.mem_iff_get.mp hq
    have hpos' : pos < xs.length := by simpa [List.enum_length] using hpos
    have : xs.enum[pos] = (pos, xs[pos]) := List.getElem_enum xs pos hpos
    rw [List.get_eq_getElem, this] at hget
    obtain ⟨h1, h2⟩ := Prod.mk.injEq _ _ _ _ ▸ hget
    refine ⟨h1 ▸ hpos', ?_⟩
    subst h1
    simpa using h2
  · rintro ⟨h, hget⟩
    refine List.mem_iff_get.mpr ⟨⟨q.1, by simpa [List.enum_length] using h⟩, ?_⟩
    rw [List.get_eq_getElem, List.getElem_enum]
    rw [List.get_eq_getElem] at hget
    rw [hget]

theorem mem_removedIdxs (pexp : ℚ → ℚ) (l : List Logit) (p : ℚ) (j : ℕ) :
    j ∈ removedIdxs pexp l p ↔
      ∃ pos, ∃ h : pos < (sortPairs l).length,
        maskedPos pexp l p pos ∧ ((sortPairs l).get ⟨pos, h⟩).2 = j := by
  rw [removedIdxs, List.mem_map]
  constructor
  · rintro ⟨q, hq, hfj⟩
    obtain ⟨hq1, hq2⟩ := List.mem_filter.mp hq
    obtain ⟨h, hget⟩ := (enum_mem_iff (sortPairs l) q).mp hq1
    refine ⟨q.1, h, by simpa using hq2, ?_⟩
    rw [hget]; exact hfj
  · rintro ⟨pos, h, hm, hj⟩
    refine ⟨(pos, (sortPairs l).get ⟨pos, h⟩), ?_, hj⟩
    apply List.mem_filter.mpr
    exact ⟨(enum_mem_iff _ _).mpr ⟨h, rfl⟩, by simpa using hm⟩

theorem topPFilter_length (pexp : ℚ → ℚ) (l : List Logit) (p : ℚ)
    (fv : Logit) : (topPFilter pexp l p fv).length = l.length := by
  rw [topPFilter]
  split <;> simp [List.enum_length]

theorem topPFilter_getD (pexp : ℚ → ℚ) (l : List Logit) (p : ℚ) (fv : Logit)
    (hp : 0 < p) (j : ℕ) (hj : j < l.length) :
    (topPFilter pexp l p fv).getD j ⊥
      = if j ∈ removedIdxs pexp l p then fv else l.getD j ⊥ := by
  rw [topPFilter, if_pos hp]
  have hj' : j < (l.enum.map (fun q =>
      if q.1 ∈ removedIdxs pexp l p then fv else q.2)).length := by
    simpa [List.enum_length] using hj
  rw [List.getD_eq_getElem?_getD, List.getElem?_eq_getElem hj',
    List.getElem_map, List.getElem_enum]
  rw [List.getD_eq_getElem?_getD, List.getElem?_eq_getElem hj]
  rfl

theorem topPFilter_skip (pexp : ℚ → ℚ) (l : List Logit) (p : ℚ) (fv : Logit)
    (hp : ¬ 0 < p) : topPFilter pexp l p fv = l := by
  rw [topPFilter, if_neg hp]

/-- Whatever the filters do to an entry, it either keeps its value or
becomes the filter sentinel. -/
theorem topKFilter_getD_cases (l : List Logit) (k : ℕ) (fv : Logit) (j : ℕ)
    (hj : j < l.length) :
    (topKFilter l k fv).getD j ⊥ = l.getD j ⊥ ∨
      (topKFilter l k fv).getD j ⊥ = fv := by
  rw [topKFilter]
  by_cases hk : 0 < min k l.length
  · rw [if_pos hk]
    rw [List.getD_eq_getElem?_getD, List.getElem?_eq_getElem (by simpa using hj),
      List.getElem_map]
    rw [List.getD_eq_getElem?_getD, List.getElem?_eq_getElem hj]
    by_cases hlt : l[j] < kthLargest l (min k l.length)
    · right; simp [hlt]
    · left; simp [hlt]
  · rw [if_neg hk]; left; rfl

theorem topKFilter_getD_keep (l : List Logit) (k : ℕ) (fv : Logit) (j : ℕ)
    (hj : j < l.length)
    (h : ¬ l.getD j ⊥ < kthLargest l (min k l.length)) :
    (topKFilter l k fv).getD j ⊥ = l.getD j ⊥ := by
  rw [topKFilter]
  by_cases hk : 0 < min k l.length
  · rw [if_pos hk]
    rw [List.getD_eq_getElem?_getD, List.getElem?_eq_getElem (by simpa using hj),
      List.getElem_map]
    rw [List.getD_eq_getElem?_getD, List.getElem?_eq_getElem hj] at h ⊢
    rw [Option.getD_some] at h ⊢
    simp [h]
  · rw [if_neg hk]

theorem getD_mem (l : List Logit) (j : ℕ) (hj : j < l.length) :
    l.getD j ⊥ ∈ l := by
  rw [List.getD_eq_getElem?_getD, List.getElem?_eq_getElem hj]
  exact List.getElem_mem hj

/-- Every entry is at most the value at sorted position `0`. -/
theorem sortedVals_max (l : List Logit) (x : Logit) (hx : x ∈ l) :
    x ≤ (sortedVals l).getD 0 ⊥ := by
  obtain ⟨⟨ix, hix⟩, hget⟩ := List.mem_iff_get.mp hx
  have hx' : l.getD ix ⊥ = x := by
    rw [List.getD_eq_getElem?_getD, List.getElem?_eq_getElem hix]
    simpa using hget
  have hmem : (l.getD ix ⊥, ix) ∈ sortPairs l := mem_sortPairs l ix hix
  obtain ⟨⟨pos, hpos⟩, hget'⟩ := List.mem_iff_get.mp hmem
  have hval : (sortedVals l).getD pos ⊥ = x := by
    rw [sortedVals_getD l pos hpos, hget', hx']
  rw [← hval]
  exact sortedVals_anti l 0 pos (Nat.zero_le pos)
    (by rwa [sortPairs_length] at hpos)

theorem kthLargest_le_max (l : List Logit) (m : ℕ) (hn : 0 < l.length)
    (hm : m ≤ l.length) :
    kthLargest l m ≤ (sortedVals l).getD 0 ⊥ := by
  rw [kthLargest]
  exact sortedVals_anti l 0 (m - 1) (Nat.zero_le _) (by omega)

theorem sortedIdx_getD_eq (l : List Logit) (pos : ℕ)
    (h : pos < (sortPairs l).length) :
    (sortedIdx l).getD pos 0 = ((sortPairs l).get ⟨pos, h⟩).2 := by
  rw [sortedIdx, List.getD_eq_getElem?_getD,
    List.getElem?_eq_getElem (by simpa using h), List.getElem_map]
  rfl

theorem sortedIdx_getD_inj (l : List Logit) (a b : ℕ)
    (ha : a < (sortPairs l).length) (hb : b < (sortPairs l).length)
    (h : (sortedIdx l).getD a 0 = (sortedIdx l).getD b 0) : a = b := by
  have hlen : (sortedIdx l).length = (sortPairs l).length := by
    simp [sortedIdx]
  have ha' : a < (sortedIdx l).length := by omega
  have hb' : b < (sortedIdx l).length := by omega
  have hga : (sortedIdx l).getD a 0 = (sortedIdx l).get ⟨a, ha'⟩ := by
    rw [List.getD_eq_getElem?_getD, List.getElem?_eq_getElem ha']
    rfl
  have hgb : (sortedIdx l).getD b 0 = (sortedIdx l).get ⟨b, hb'⟩ := by
    rw [List.getD_eq_getElem?_getD, List.getElem?_eq_getElem hb']
    rfl
  rw [hga, hgb] at h
  have := List.nodup_iff_injective_get.mp (sortedIdx_nodup l) h
  simpa using this

/-- The original index sitting at sorted position `0`. -/
def headIdx (l : List Logit) : ℕ := (sortedIdx l).getD 0 0

theorem headIdx_spec (l : List Logit) (hn : 0 < l.length) :
    headIdx l < l.length ∧
      l.getD (headIdx l) ⊥ = (sortedVals l).getD 0 ⊥ := by
  have h0 : 0 < (sortPairs l).length := by rwa [sortPairs_length]
  have hhead : headIdx l = ((sortPairs l).get ⟨0, h0⟩).2 :=
    sortedIdx_getD_eq l 0 h0
  have hmem : (sortPairs l).get ⟨0, h0⟩ ∈ sortPairs l := List.get_mem _ _ _
  obtain ⟨hlt, hval⟩ := sortPairs_mem l hmem
  refine ⟨hhead ▸ hlt, ?_⟩
  rw [hhead, hval, sortedVals_getD l 0 h0]

theorem headIdx_not_removed (pexp : ℚ → ℚ) (l : List Logit) (p : ℚ)
    (hn : 0 < l.length) : headIdx l ∉ removedIdxs pexp l p := by
  intro hmem
  obtain ⟨pos, h, hmask, hj⟩ := (mem_removedIdxs pexp l p _).mp hmem
  have h0 : 0 < (sortPairs l).length := by rwa [sortPairs_length]
  have hhead : headIdx l = ((sortPairs l).get ⟨0, h0⟩).2 :=
    sortedIdx_getD_eq l 0 h0
  have hpos : (sortedIdx l).getD pos 0 = (sortedIdx l).getD 0 0 := by
    rw [sortedIdx_getD_eq l pos h, sortedIdx_getD_eq l 0 h0, hj, hhead]
  exact hmask.1 (sortedIdx_getD_inj l pos 0 h h0 hpos)

/-- Core survival lemma: whenever the input has at least one non-sentinel
entry, some entry holding the maximum value passes both filters unchanged.
The top-k step cannot replace it (it is not strictly below the k-th largest
value) and the nucleus step never removes sorted position `0`. -/
theorem max_survives (pexp : ℚ → ℚ) (l : List Logit)
    (hx : ∃ x ∈ l, x ≠ ⊥) (k : ℕ) (p : ℚ) :
    ∃ i, ∃ h : i < l.length,
      (∀ x ∈ l, x ≤ l.getD i ⊥) ∧
      (top_k_top_p_filtering pexp l k p ⊥).getD i ⊥ = l.getD i ⊥ ∧
      l.getD i ⊥ ≠ ⊥ := by
  obtain ⟨x0, hx0mem, hx0⟩ := hx
  have hn : 0 < l.length := List.length_pos.mpr (by rintro rfl; cases hx0mem)
  set l' : List Logit := topKFilter l k ⊥ with hl'
  have hlen' : l'.length = l.length := topKFilter_length l k ⊥
  have hn' : 0 < l'.length := by omega
  -- the maximum of the input
  set M : Logit := (sortedVals l).getD 0 ⊥ with hM
  have hMne : M ≠ ⊥ := by
    intro hMbot
    exact hx0 (le_bot_iff.mp (hMbot ▸ sortedVals_max l x0 hx0mem))
  -- the input's argmax survives top-k, so the maximum of `l'` is ≥ M
  obtain ⟨hj0lt, hj0val⟩ := headIdx_spec l hn
  have hkeep0 : l'.getD (headIdx l) ⊥ = l.getD (headIdx l) ⊥ := by
    rw [hl']
    apply topKFilter_getD_keep l k ⊥ (headIdx l) hj0lt
    rw [hj0val]
    exact not_lt.mpr
      (kthLargest_le_max l (min k l.length) hn (min_le_right _ _))
  set M' : Logit := (sortedVals l').getD 0 ⊥ with hM'
  have hMM' : M ≤ M' := by
    rw [hM, hM', ← hj0val, ← hkeep0]
    exact sortedVals_max l' _ (getD_mem l' (headIdx l) (by omega))
  have hM'ne : M' ≠ ⊥ := fun hb => hMne (le_bot_iff.mp (hb ▸ hMM'))
  -- the argmax of `l'`
  obtain ⟨hi'lt, hi'val⟩ := headIdx_spec l' hn'
  set i : ℕ := headIdx l' with hi
  have hilt : i < l.length := by omega
  have hl'M' : l'.getD i ⊥ = M' := by rw [hM']; exact hi'val
  -- top-k kept the entry at `i` unchanged
  have hkeep : l'.getD i ⊥ = l.getD i ⊥ := by
    rcases topKFilter_getD_cases l k ⊥ i hilt with h | h
    · rw [hl']; exact h
    · exfalso
      apply hM'ne
      rw [← hl'M', hl']
      exact h
  -- the entry at `i` dominates every input entry
  have hmax : ∀ x ∈ l, x ≤ l.getD i ⊥ := by
    intro x hxm
    calc x ≤ M := by rw [hM]; exact sortedVals_max l x hxm
    _ ≤ M' := hMM'
    _ = l'.getD i ⊥ := hl'M'.symm
    _ = l.getD i ⊥ := hkeep
  have hine : l.getD i ⊥ ≠ ⊥ := by
    rw [← hkeep, hl'M']; exact hM'ne
  refine ⟨i, hilt, hmax, ?_, hine⟩
  rw [top_k_top_p_filtering, ← hl']
  by_cases hp : 0 < p
  · rw [topPFilter_getD pexp l' p ⊥ hp i (by omega),
      if_neg (headIdx_not_removed pexp l' p hn'), hkeep]
  · rw [topPFilter_skip pexp l' p ⊥ hp, hkeep]

/-! ## C10: the top-scoring candidate always survives -/

/-- C10: for a non-empty vector of (finite) logits and any `top_k ≥ 0`,
`top_p ∈ [0,1]`, some entry holding the maximum logit is kept unchanged by
the combined filter (in particular it is not the sentinel). -/
theorem C10_max_kept (pexp : ℚ → ℚ) (l : List ℚ) (hl : l ≠ [])
    (k : ℕ) (p : ℚ) (hp0 : 0 ≤ p) (hp1 : p ≤ 1) :
    ∃ i, ∃ h : i < l.length,
      (∀ x ∈ l, x ≤ l.getD i 0) ∧
      (top_k_top_p_filtering pexp (toLogits l) k p ⊥).getD i ⊥
        = ((l.getD i 0 : ℚ) : Logit) := by
  have hn : 0 < l.length := List.length_pos.mpr hl
  have hx : ∃ x ∈ toLogits l, x ≠ ⊥ := by
    refine ⟨((l.getD 0 0 : ℚ) : Logit), ?_, WithBot.coe_ne_bot⟩
    rw [← coe_getD l 0 hn]
    exact getD_mem (toLogits l) 0 (by rwa [toLogits_length])
  obtain ⟨i, hilt, hmax, hfix, hne⟩ := max_survives pexp (toLogits l) hx k p
  have hilt' : i < l.length := by rwa [toLogits_length] at hilt
  refine ⟨i, hilt', ?_, ?_⟩
  · intro x hxm
    have hxE : ((x : ℚ) : Logit) ∈ toLogits l := by
      rw [toLogits]
      exact List.mem_map.mpr ⟨x, hxm, rfl⟩
    have := hmax _ hxE
    rw [coe_getD l i hilt'] at this
    exact_mod_cast this
  · rw [hfix, coe_getD l i hilt']

theorem C10_max_kept_witness :
    ([1, 2, 3, 4, 1/2] : List ℚ) ≠ [] ∧ (0:ℚ) ≤ 1/2 ∧ (1/2:ℚ) ≤ 1 ∧
    ∃ i, ∃ h : i < ([1, 2, 3, 4, 1/2] : List ℚ).length,
      (∀ x ∈ ([1, 2, 3, 4, 1/2] : List ℚ), x ≤ ([1, 2, 3, 4, 1/2] : List ℚ).getD i 0) ∧
      (top_k_top_p_filtering (fun _ => 1) (toLogits [1, 2, 3, 4, 1/2])
        2 (1/2) ⊥).getD i ⊥
        = ((([1, 2, 3, 4, 1/2] : List ℚ).getD i 0 : ℚ) : Logit) := by
  exact ⟨by decide, by norm_num, by norm_num,
    C10_max_kept (fun _ => 1) [1, 2, 3, 4, 1/2] (by decide) 2 (1/2)
      (by norm_num) (by norm_num)⟩

/-! ## Softmax facts -/

theorem eexp_bot (pexp : ℚ → ℚ) : eexp pexp ⊥ = 0 := rfl

theorem eexp_coe (pexp : ℚ → ℚ) (q : ℚ) : eexp pexp (q : Logit) = pexp q := rfl

theorem eexp_nonneg (pexp : ℚ → ℚ) (hp : ∀ q, 0 < pexp q) (x : Logit) :
    0 ≤ eexp pexp x := by
  induction x using WithBot.recBotCoe with
  | bot => exact le_refl 0
  | coe q => exact le_of_lt (hp q)

theorem eexp_pos (pexp : ℚ → ℚ) (hp : ∀ q, 0 < pexp q) (x : Logit)
    (hx : x ≠ ⊥) : 0 < eexp pexp x := by
  induction x using WithBot.recBotCoe with
  | bot => exact absurd rfl hx
  | coe q => exact hp q

theorem zsum_nonneg (pexp : ℚ → ℚ) (hp : ∀ q, 0 < pexp q) (l : List Logit) :
    0 ≤ (l.map (eexp pexp)).sum := by
  apply List.sum_nonneg
  intro x hx
  obtain ⟨y, _, rfl⟩ := List.mem_map.mp hx
  exact eexp_nonneg pexp hp y

theorem zsum_pos (pexp : ℚ → ℚ) (hp : ∀ q, 0 < pexp q) (l : List Logit)
    (hx : ∃ x ∈ l, x ≠ ⊥) : 0 < (l.map (eexp pexp)).sum := by
  induction l with
  | nil => obtain ⟨x, hmem, _⟩ := hx; cases hmem
  | cons a t ih =>
    rw [List.map_cons, List.sum_cons]
    obtain ⟨x, hmem, hxne⟩ := hx
    rcases List.mem_cons.mp hmem with rfl | hmem'
    · exact add_pos_of_pos_of_nonneg (eexp_pos pexp hp x hxne)
        (zsum_nonneg pexp hp t)
    · exact add_pos_of_nonneg_of_pos (eexp_nonneg pexp hp a)
        (ih ⟨x, hmem', hxne⟩)

theorem softmax_length (pexp : ℚ → ℚ) (l : List Logit) :
    (softmax pexp l).length = l.length := by
  simp [softmax]

theorem softmax_getD (pexp : ℚ → ℚ) (l : List Logit) (j : ℕ)
    (hj : j < l.length) :
    (softmax pexp l).getD j 0
      = eexp pexp (l.getD j ⊥) / (l.map (eexp pexp)).sum := by
  rw [softmax, List.getD_eq_getElem?_getD,
    List.getElem?_eq_getElem (by simpa using hj), List.getElem_map,
    List.getD_eq_getElem?_getD, List.getElem?_eq_getElem hj]
  rfl

theorem sum_map_div (xs : List ℚ) (c : ℚ) :
    (xs.map (fun x => x / c)).sum = xs.sum / c := by
  simp [div_eq_mul_inv, List.sum_map_mul_right]

theorem softmax_sum_one (pexp : ℚ → ℚ) (l : List Logit)
    (hz : (l.map (eexp pexp)).sum ≠ 0) : (softmax pexp l).sum = 1 := by
  have h1 : softmax pexp l
      = (l.map (eexp pexp)).map (fun y => y / (l.map (eexp pexp)).sum) := by
    rw [softmax, List.map_map]
    rfl
  rw [h1, sum_map_div, div_self hz]

/-! ## Filtering preserves the sentinel and the length -/

theorem filtering_length (pexp : ℚ → ℚ) (l : List Logit) (k : ℕ) (p : ℚ)
    (fv : Logit) :
    (top_k_top_p_filtering pexp l k p fv).length = l.length := by
  rw [top_k_top_p_filtering, topPFilter_length, topKFilter_length]

theorem filtering_bot (pexp : ℚ → ℚ) (l : List Logit) (k : ℕ) (p : ℚ)
    (j : ℕ) (hj : j < l.length) (hbj : l.getD j ⊥ = ⊥) :
    (top_k_top_p_filtering pexp l k p ⊥).getD j ⊥ = ⊥ := by
  rw [top_k_top_p_filtering]
  have hj' : j < (topKFilter l k ⊥).length := by
    rw [topKFilter_length]; exact hj
  have hK : (topKFilter l k ⊥).getD j ⊥ = ⊥ := by
    rcases topKFilter_getD_cases l k ⊥ j hj with h | h
    · rw [h, hbj]
    · exact h
  by_cases hp : 0 < p
  · rw [topPFilter_getD pexp _ p ⊥ hp j hj']
    split
    · rfl
    · exact hK
  · rw [topPFilter_skip _ _ _ _ hp]; exact hK

theorem scatterDiv_length (l : List ℚ) (idxs : List ℕ) (c : ℚ) :
    (scatterDiv l idxs c).length = l.length := by
  rw [scatterDiv]
  generalize (idxs.map (fun i => (i, l.getD i 0 / c))) = ps
  induction ps generalizing l with
  | nil => rfl
  | cons q rest ih =>
    rw [List.foldl_cons]
    rw [ih (l.set q.1 q.2)]
    exact List.length_set l q.1 q.2

/-! ## C5: the unknown token is never sampled -/

/-- One generation step appends a token different from the reserved unknown
id: the `[UNK]` logit is forced to `⊥` before filtering, filtering keeps it
at `⊥`, its softmax probability is therefore `0`, and a multinomial sampler
only returns indices of positive probability. -/
theorem sampled_token_ok (pexp : ℚ → ℚ) (hpexp : ∀ q, 0 < pexp q)
    (model : List ℕ → List ℚ) (sampler : List ℚ → ℕ) (cfg : GenConfig)
    (V : ℕ) (hmodel : ∀ ctx, (model ctx).length = V) (hV : 2 ≤ V)
    (hunk : cfg.unkId < V)
    (hsampler : ∀ probs : List ℚ,
      0 < probs.sum → 0 < probs.getD (sampler probs) 0)
    (seq : List ℕ) :
    ∃ tok : ℕ,
      generateStep pexp model sampler cfg seq = seq ++ [tok] ∧
      tok ≠ cfg.unkId := by
  set l2 : List ℚ :=
    (scatterDiv (model (contextWindow cfg.n_ctx seq)) seq
      cfg.repitition_penalty).map (fun q => q / cfg.temperature) with hl2
  set L : List Logit := (toLogits l2).set cfg.unkId ⊥ with hL
  set F : List Logit := top_k_top_p_filtering pexp L cfg.top_k cfg.top_p ⊥
    with hF
  have hstep : generateStep pexp model sampler cfg seq
      = seq ++ [sampler (softmax pexp F)] := rfl
  -- lengths
  have hl2len : l2.length = V := by
    rw [hl2, List.length_map, scatterDiv_length, hmodel]
  have hLlen : L.length = V := by
    rw [hL, List.length_set, toLogits_length, hl2len]
  have hFlen : F.length = V := by
    rw [hF, filtering_length, hLlen]
  -- the unknown entry of `L` is the sentinel
  have hLunk : L.getD cfg.unkId ⊥ = ⊥ := by
    rw [hL, List.getD_eq_getElem?_getD,
      List.getElem?_set_self (by rw [toLogits_length, hl2len]; exact hunk)]
    rfl
  -- some other entry of `L` is finite
  have hother : ∃ x ∈ L, x ≠ ⊥ := by
    set j : ℕ := if cfg.unkId = 0 then 1 else 0 with hj
    have hjV : j < V := by
      rw [hj]; split <;> omega
    have hjne : cfg.unkId ≠ j := by
      rw [hj]; split <;> omega
    have hjL : j < L.length := by omega
    refine ⟨L.getD j ⊥, getD_mem L j hjL, ?_⟩
    rw [hL, List.getD_eq_getElem?_getD,
      List.getElem?_eq_getElem (by rwa [hL] at hjL), List.getElem_set,
      if_neg hjne]
    simp only [toLogits, List.getElem_map, Option.getD_some]
    exact WithBot.coe_ne_bot
  -- the unknown entry of `F` is still the sentinel
  have hFunk : F.getD cfg.unkId ⊥ = ⊥ := by
    rw [hF]
    exact filtering_bot pexp L cfg.top_k cfg.top_p cfg.unkId
      (by omega) hLunk
  -- some entry of `F` is still finite
  have hFsome : ∃ x ∈ F, x ≠ ⊥ := by
    obtain ⟨i, hi, _, hfix, hne⟩ :=
      max_survives pexp L hother cfg.top_k cfg.top_p
    refine ⟨F.getD i ⊥, getD_mem F i (by omega), ?_⟩
    rw [hF, hfix]
    exact hne
  have hz : 0 < (F.map (eexp pexp)).sum := zsum_pos pexp hpexp F hFsome
  have hsum1 : (softmax pexp F).sum = 1 :=
    softmax_sum_one pexp F (ne_of_gt hz)
  have hpos := hsampler (softmax pexp F) (by rw [hsum1]; exact one_pos)
  refine ⟨sampler (softmax pexp F), hstep, ?_⟩
  intro hcontra
  rw [hcontra] at hpos
  rw [softmax_getD pexp F cfg.unkId (by omega), hFunk, eexp_bot,
    zero_div] at hpos
  exact lt_irrefl 0 hpos

theorem gen_no_unk (pexp : ℚ → ℚ) (hpexp : ∀ q, 0 < pexp q)
    (model : List ℕ → List ℚ) (sampler : List ℚ → ℕ) (cfg : GenConfig)
    (V : ℕ) (hmodel : ∀ ctx, (model ctx).length = V) (hV : 2 ≤ V)
    (hunk : cfg.unkId < V)
    (hsampler : ∀ probs : List ℚ,
      0 < probs.sum → 0 < probs.getD (sampler probs) 0)
    (context : List ℕ) (t : ℕ) :
    ∀ x ∈ ((generateStep pexp model sampler cfg)^[t] context).drop
        context.length, x ≠ cfg.unkId := by
  induction t with
  | zero =>
    intro x hx
    rw [Function.iterate_zero_apply, List.drop_length] at hx
    cases hx
  | succ n ih =>
    intro x hx
    rw [Function.iterate_succ_apply'] at hx
    obtain ⟨tail, htail, _⟩ :=
      generate_iterate_append pexp model sampler cfg context n
    obtain ⟨tok, hstep, htokne⟩ := sampled_token_ok pexp hpexp model sampler
      cfg V hmodel hV hunk hsampler
      ((generateStep pexp model sampler cfg)^[n] context)
    rw [hstep, htail, List.append_assoc, List.drop_left] at hx
    rcases List.mem_append.mp hx with hx' | hx'
    · apply ih
      rw [htail, List.drop_left]
      exact hx'
    · rw [List.mem_singleton.mp hx']
      exact htokne

/-- C5: with a positive abstract exponential, a model that always returns a
logit vector of the vocabulary size `V ≥ 2`, a reserved unknown id inside
the vocabulary, and a multinomial sampler that only returns indices of
positive probability, the unknown id never appears in the generated
(non-prefix) portion of the returned sequence: its logit is forced to the
sentinel before filtering and sampling at every step. -/
theorem C5_unknown_never_sampled (pexp : ℚ → ℚ) (hpexp : ∀ q, 0 < pexp q)
    (model : List ℕ → List ℚ) (sampler : List ℚ → ℕ) (cfg : GenConfig)
    (V : ℕ) (hmodel : ∀ ctx, (model ctx).length = V) (hV : 2 ≤ V)
    (hunk : cfg.unkId < V)
    (hsampler : ∀ probs : List ℚ,
      0 < probs.sum → 0 < probs.getD (sampler probs) 0)
    (context : List ℕ) :
    ∀ x ∈ (generate pexp model sampler cfg context).drop context.length,
      x ≠ cfg.unkId := by
  rw [generate]
  exact gen_no_unk pexp hpexp model sampler cfg V hmodel hV hunk hsampler
    context cfg.length

theorem sum_nonpos_of_all (xs : List ℚ) (h : ∀ x ∈ xs, x ≤ 0) :
    xs.sum ≤ 0 := by
  induction xs with
  | nil => exact le_refl 0
  | cons a t ih =>
    rw [List.sum_cons]
    exact add_nonpos (h a (List.mem_cons_self a t))
      (ih (fun x hx => h x (List.mem_cons_of_mem a hx)))

theorem findIdx_pos_getD (probs : List ℚ) (h : 0 < probs.sum) :
    0 < probs.getD (probs.findIdx (fun q => decide (0 < q))) 0 := by
  have hex : ∃ x ∈ probs, 0 < x := by
    by_contra hno
    push_neg at hno
    exact absurd (sum_nonpos_of_all probs hno) (not_le.mpr h)
  obtain ⟨x, hxmem, hxpos⟩ := hex
  have hlt : probs.findIdx (fun q => decide (0 < q)) < probs.length :=
    List.findIdx_lt_length_of_exists ⟨x, hxmem, by simpa using hxpos⟩
  rw [List.getD_eq_getElem?_getD, List.getElem?_eq_getElem hlt]
  have := @List.findIdx_getElem ℚ (fun q => decide (0 < q)) probs hlt
  simpa using this

theorem C5_unknown_never_sampled_witness :
    (1 : ℕ) ∈ (generate (fun _ => 1) (fun _ => [1, 1])
        (fun probs => probs.findIdx (fun q => decide (0 < q)))
        ⟨1, 4, 1, 0, 0, 1, 0⟩ [0]).drop ([0] : List ℕ).length ∧
      (1 : ℕ) ≠ (GenConfig.mk 1 4 1 0 0 1 0).unkId := by
  have he1 : eexp (fun _ => (1:ℚ)) (1 : Logit) = 1 := rfl
  have he2 : eexp (fun _ => (1:ℚ)) ⊥ = 0 := rfl
  have hgen : generate (fun _ => 1) (fun _ => [1, 1])
      (fun probs => probs.findIdx (fun q => decide (0 < q)))
      ⟨1, 4, 1, 0, 0, 1, 0⟩ [0] = [0, 1] := by
    rw [generate]
    norm_num [generateStep, Function.iterate_one, contextWindow,
      scatterDiv, top_k_top_p_filtering, topKFilter, topPFilter, softmax,
      toLogits, List.findIdx_cons, he1, he2]
  refine ⟨?_, ?_⟩
  · rw [hgen]; decide
  · exact C5_unknown_never_sampled (fun _ => 1) (fun _ => one_pos)
      (fun _ => [1, 1]) (fun probs => probs.findIdx (fun q => decide (0 < q)))
      ⟨1, 4, 1, 0, 0, 1, 0⟩ 2 (fun _ => rfl) (by decide) (by decide)
      (fun probs h => findIdx_pos_getD probs h) [0] 1 (by rw [hgen]; decide)

/-! ## Cumulative-probability infrastructure -/

theorem getD_mem_any {α : Type} (l : List α) (j : ℕ) (d : α)
    (hj : j < l.length) : l.getD j d ∈ l := by
  rw [List.getD_eq_getElem?_getD, List.getElem?_eq_getElem hj]
  exact List.getElem_mem hj

theorem sum_take_eq_range (xs : List ℚ) (m : ℕ) (hm : m ≤ xs.length) :
    (xs.take m).sum = ∑ i ∈ Finset.range m, xs.getD i 0 := by
  induction m with
  | zero => simp
  | succ t ih =>
    rw [List.sum_take_succ xs t (by omega), Finset.sum_range_succ,
      ih (by omega)]
    congr 1
    rw [List.getD_eq_getElem?_getD, List.getElem?_eq_getElem (by omega)]
    rfl

theorem sum_take_le_sum (xs : List ℚ) (hpos : ∀ x ∈ xs, 0 ≤ x) (i : ℕ) :
    (xs.take i).sum ≤ xs.sum := by
  have hsplit := List.take_append_drop i xs
  calc (xs.take i).sum ≤ (xs.take i).sum + (xs.drop i).sum := by
        have : 0 ≤ (xs.drop i).sum :=
          List.sum_nonneg (fun x hx => hpos x (List.mem_of_mem_drop hx))
        linarith
    _ = xs.sum := by rw [← List.sum_append, hsplit]

theorem sum_take_mono (xs : List ℚ) (hpos : ∀ x ∈ xs, 0 ≤ x) (i j : ℕ)
    (hij : i ≤ j) : (xs.take i).sum ≤ (xs.take j).sum := by
  rcases le_or_lt j xs.length with hj | hj
  · have hsplit : xs.take j = xs.take i ++ (xs.drop i).take (j - i) := by
      have hji : i + (j - i) = j := by omega
      nth_rewrite 1 [← hji]
      rw [List.take_add]
    rw [hsplit, List.sum_append]
    have : 0 ≤ ((xs.drop i).take (j - i)).sum :=
      List.sum_nonneg (fun x hx =>
        hpos x (List.mem_of_mem_drop (List.mem_of_mem_take hx)))
    linarith
  · rw [List.take_of_length_le (le_of_lt hj)]
    exact sum_take_le_sum xs hpos i

theorem zsum_sorted (pexp : ℚ → ℚ) (l : List Logit) :
    ((sortedVals l).map (eexp pexp)).sum = (l.map (eexp pexp)).sum :=
  ((sortedVals_perm l).map (eexp pexp)).sum_eq

theorem ps_getD (pexp : ℚ → ℚ) (l : List Logit) (pos : ℕ)
    (hpos : pos < l.length) :
    (softmax pexp (sortedVals l)).getD pos 0
      = eexp pexp ((sortedVals l).getD pos ⊥) / (l.map (eexp pexp)).sum := by
  rw [softmax_getD pexp (sortedVals l) pos (by rwa [sortedVals_length]),
    zsum_sorted]

theorem softmax_mem_nonneg (pexp : ℚ → ℚ) (hp : ∀ q, 0 < pexp q)
    (l : List Logit) : ∀ x ∈ softmax pexp l, 0 ≤ x := by
  intro x hx
  obtain ⟨y, _, rfl⟩ := List.mem_map.mp hx
  exact div_nonneg (eexp_nonneg pexp hp y) (zsum_nonneg pexp hp l)

theorem idxAt_lt (l : List Logit) (pos : ℕ)
    (hpos : pos < (sortPairs l).length) :
    (sortedIdx l).getD pos 0 < l.length := by
  have hlen : (sortedIdx l).length = (sortPairs l).length := by
    simp [sortedIdx]
  have hmem : (sortedIdx l).getD pos 0 ∈ sortedIdx l :=
    getD_mem_any _ pos 0 (by omega)
  exact List.mem_range.mp ((sortedIdx_perm_range l).mem_iff.mp hmem)

theorem idx_val_transfer (l : List Logit) (pos : ℕ)
    (hpos : pos < (sortPairs l).length) :
    l.getD ((sortedIdx l).getD pos 0) ⊥ = (sortedVals l).getD pos ⊥ := by
  have hpair := sortPairs_mem l (List.get_mem (sortPairs l) pos hpos)
  rw [sortedIdx_getD_eq l pos hpos, sortedVals_getD l pos hpos]
  exact hpair.2

theorem probs_at_sorted (pexp : ℚ → ℚ) (l : List Logit) (pos : ℕ)
    (hpos : pos < l.length) :
    (softmax pexp l).getD ((sortedIdx l).getD pos 0) 0
      = (softmax pexp (sortedVals l)).getD pos 0 := by
  have hpos' : pos < (sortPairs l).length := by rwa [sortPairs_length]
  rw [softmax_getD pexp l _ (idxAt_lt l pos hpos'), ps_getD pexp l pos hpos,
    idx_val_transfer l pos hpos']

theorem removed_iff_masked (pexp : ℚ → ℚ) (l : List Logit) (p : ℚ)
    (pos : ℕ) (hpos : pos < (sortPairs l).length) :
    (sortedIdx l).getD pos 0 ∈ removedIdxs pexp l p
      ↔ maskedPos pexp l p pos := by
  constructor
  · intro hmem
    obtain ⟨pos', h', hm, hj⟩ := (mem_removedIdxs pexp l p _).mp hmem
    have heq : (sortedIdx l).getD pos' 0 = (sortedIdx l).getD pos 0 := by
      rw [sortedIdx_getD_eq l pos' h']
      exact hj
    rwa [sortedIdx_getD_inj l pos' pos h' hpos heq] at hm
  · intro hm
    exact (mem_removedIdxs pexp l p _).mpr
      ⟨pos, hpos, hm, (sortedIdx_getD_eq l pos hpos).symm⟩

theorem topP_surv_iff (pexp : ℚ → ℚ) (l : List Logit) (p : ℚ)
    (hp : 0 < p) (j : ℕ) (hj : j < l.length) :
    (topPFilter pexp l p ⊥).getD j ⊥ ≠ ⊥
      ↔ (j ∉ removedIdxs pexp l p ∧ l.getD j ⊥ ≠ ⊥) := by
  rw [topPFilter_getD pexp l p ⊥ hp j hj]
  by_cases hmem : j ∈ removedIdxs pexp l p
  · rw [if_pos hmem]
    exact iff_of_false (fun h => h rfl) (fun h => h.1 hmem)
  · rw [if_neg hmem]
    constructor
    · exact fun h => ⟨hmem, h⟩
    · exact fun h => h.2

theorem masked_mono (pexp : ℚ → ℚ) (hpexp : ∀ q, 0 < pexp q)
    (l : List Logit) (p : ℚ) (i i' : ℕ) (hi : maskedPos pexp l p i)
    (hii' : i ≤ i') : maskedPos pexp l p i' := by
  have h1 : i ≠ 0 := hi.1
  refine ⟨by omega, lt_of_lt_of_le hi.2 ?_⟩
  exact sum_take_mono _ (softmax_mem_nonneg pexp hpexp _) i i' hii'

theorem topKFilter_zero (l : List Logit) (fv : Logit) :
    topKFilter l 0 fv = l := by
  rw [topKFilter]
  simp

/-- The cut analysis of the nucleus mask: there is a position `m` (with
`1 ≤ m ≤ n`) such that exactly the sorted positions below `m` are unmasked,
the cumulative probability of the first `m` sorted entries exceeds `p`, and
that of the first `m - 1` entries is at most `p`. -/
theorem nucleus_analysis (pexp : ℚ → ℚ) (hpexp : ∀ q, 0 < pexp q)
    (l : List ℚ) (hl : l ≠ []) (p : ℚ) (hp0 : 0 < p) (hp1 : p < 1) :
    ∃ m, 1 ≤ m ∧ m ≤ l.length ∧
      (∀ pos, pos < m → ¬ maskedPos pexp (toLogits l) p pos) ∧
      (∀ pos, m ≤ pos → pos < l.length → maskedPos pexp (toLogits l) p pos) ∧
      p < ((softmax pexp (sortedVals (toLogits l))).take m).sum ∧
      ((softmax pexp (sortedVals (toLogits l))).take (m - 1)).sum ≤ p := by
  set lE : List Logit := toLogits l with hlE
  have hlen : lE.length = l.length := toLogits_length l
  have hn : 0 < l.length := List.length_pos.mpr hl
  have hZ : 0 < (lE.map (eexp pexp)).sum := by
    apply zsum_pos pexp hpexp
    refine ⟨lE.getD 0 ⊥, getD_mem lE 0 (by omega), ?_⟩
    rw [hlE, coe_getD l 0 hn]
    exact WithBot.coe_ne_bot
  have hpslen : (softmax pexp (sortedVals lE)).length = l.length := by
    rw [softmax_length, sortedVals_length, hlen]
  have hfull : ((softmax pexp (sortedVals lE)).take l.length).sum = 1 := by
    rw [List.take_of_length_le (le_of_eq hpslen)]
    apply softmax_sum_one
    rw [zsum_sorted]
    exact ne_of_gt hZ
  by_cases hex : ∃ i, i < l.length ∧ maskedPos pexp lE p i
  · obtain ⟨hmlt, hmmask⟩ := Nat.find_spec hex
    have hm1 : 1 ≤ Nat.find hex := Nat.one_le_iff_ne_zero.mpr hmmask.1
    refine ⟨Nat.find hex, hm1, le_of_lt hmlt, ?_, ?_, ?_, ?_⟩
    · intro pos hpos hmask
      exact Nat.find_min hex hpos ⟨lt_trans hpos hmlt, hmask⟩
    · intro pos hmpos hposn
      exact masked_mono pexp hpexp lE p (Nat.find hex) pos hmmask hmpos
    · exact hmmask.2
    · by_cases h0 : Nat.find hex - 1 = 0
      · rw [h0]
        simpa using le_of_lt hp0
      · have hnm : ¬ maskedPos pexp lE p (Nat.find hex - 1) := fun hmask =>
          Nat.find_min hex (by omega) ⟨by omega, hmask⟩
        rw [maskedPos] at hnm
        push_neg at hnm
        exact hnm h0
  · push_neg at hex
    refine ⟨l.length, by omega, le_refl _, ?_, ?_, ?_, ?_⟩
    · intro pos hpos
      exact hex pos hpos
    · intro pos h1 h2
      omega
    · rw [hfull]
      exact hp1
    · by_cases h0 : l.length - 1 = 0
      · rw [h0]
        simpa using le_of_lt hp0
      · have hnm : ¬ maskedPos pexp lE p (l.length - 1) :=
          hex (l.length - 1) (by omega)
        rw [maskedPos] at hnm
        push_neg at hnm
        exact hnm h0

/-! ## C3: the top-p invariant -/

/-- C3 (amended): for a non-empty finite logit vector, `p ∈ (0,1)` and
`top_k = 0`, the nucleus is non-empty, the surviving entries' softmax
probabilities sum to at least `p`, and removing the lowest-ranked survivor
drops the sum to **at most** `p` (not necessarily strictly below `p`: the
cumulative probability can tie with `p` exactly, see the counterexample).
Survivors are ranked by descending logit, so the lowest-ranked survivor is
a survivor of minimal logit value; the softmax probability of an entry is a
function of its logit alone, so when several survivors tie at the minimal
value each of them carries the same mass as the lowest-ranked one.  The
minimality conjunct is therefore stated for **every** survivor of minimal
logit value (and one such survivor is exhibited): in particular it holds
for the lowest-ranked survivor itself. -/
theorem C3_top_p_invariant (pexp : ℚ → ℚ) (hpexp : ∀ q, 0 < pexp q)
    (l : List ℚ) (hl : l ≠ []) (p : ℚ) (hp0 : 0 < p) (hp1 : p < 1) :
    ((Finset.range l.length).filter (fun i =>
        (top_k_top_p_filtering pexp (toLogits l) 0 p ⊥).getD i ⊥
          ≠ ⊥)).Nonempty ∧
    p ≤ (∑ i ∈ (Finset.range l.length).filter (fun i =>
        (top_k_top_p_filtering pexp (toLogits l) 0 p ⊥).getD i ⊥ ≠ ⊥),
        (softmax pexp (toLogits l)).getD i 0) ∧
    (∃ i0 ∈ (Finset.range l.length).filter (fun i =>
        (top_k_top_p_filtering pexp (toLogits l) 0 p ⊥).getD i ⊥ ≠ ⊥),
      ∀ i ∈ (Finset.range l.length).filter (fun i =>
        (top_k_top_p_filtering pexp (toLogits l) 0 p ⊥).getD i ⊥ ≠ ⊥),
        l.getD i0 0 ≤ l.getD i 0) ∧
    ∀ i0 ∈ (Finset.range l.length).filter (fun i =>
        (top_k_top_p_filtering pexp (toLogits l) 0 p ⊥).getD i ⊥ ≠ ⊥),
      (∀ i ∈ (Finset.range l.length).filter (fun i =>
        (top_k_top_p_filtering pexp (toLogits l) 0 p ⊥).getD i ⊥ ≠ ⊥),
        l.getD i0 0 ≤ l.getD i 0) →
      (∑ i ∈ ((Finset.range l.length).filter (fun i =>
          (top_k_top_p_filtering pexp (toLogits l) 0 p ⊥).getD i ⊥
            ≠ ⊥)).erase i0,
        (softmax pexp (toLogits l)).getD i 0) ≤ p := by
  have hlen : (toLogits l).length = l.length := toLogits_length l
  have hn : 0 < l.length := List.length_pos.mpr hl
  have hsp : (sortPairs (toLogits l)).length = l.length := by
    rw [sortPairs_length, hlen]
  have hps : (softmax pexp (sortedVals (toLogits l))).length = l.length := by
    rw [softmax_length, sortedVals_length, hlen]
  have hres : top_k_top_p_filtering pexp (toLogits l) 0 p ⊥
      = topPFilter pexp (toLogits l) p ⊥ := by
    rw [top_k_top_p_filtering, topKFilter_zero]
  obtain ⟨m, hm1, hmn, hbelow, habove, hhi, hlo⟩ :=
    nucleus_analysis pexp hpexp l hl p hp0 hp1
  have hSmem : ∀ j, (j ∈ (Finset.range l.length).filter (fun i =>
      (top_k_top_p_filtering pexp (toLogits l) 0 p ⊥).getD i ⊥ ≠ ⊥))
      ↔ (j < l.length ∧ j ∉ removedIdxs pexp (toLogits l) p) := by
    intro j
    rw [Finset.mem_filter, Finset.mem_range, hres]
    constructor
    · rintro ⟨hj, hne⟩
      exact ⟨hj, ((topP_surv_iff pexp (toLogits l) p hp0 j
        (by omega)).mp hne).1⟩
    · rintro ⟨hj, hnm⟩
      refine ⟨hj, (topP_surv_iff pexp (toLogits l) p hp0 j
        (by omega)).mpr ⟨hnm, ?_⟩⟩
      rw [coe_getD l j hj]
      exact WithBot.coe_ne_bot
  have himg : (Finset.range l.length).filter (fun i =>
      (top_k_top_p_filtering pexp (toLogits l) 0 p ⊥).getD i ⊥ ≠ ⊥)
      = (Finset.range m).image
          (fun pos => (sortedIdx (toLogits l)).getD pos 0) := by
    ext j
    rw [Finset.mem_image, hSmem j]
    constructor
    · rintro ⟨hjn, hjnr⟩
      have hjmem : j ∈ sortedIdx (toLogits l) :=
        (sortedIdx_perm_range _).mem_iff.mpr (List.mem_range.mpr (by omega))
      obtain ⟨⟨pos, hpos⟩, hget⟩ := List.mem_iff_get.mp hjmem
      have hposlen : pos < (sortPairs (toLogits l)).length := by
        simpa [sortedIdx] using hpos
      have hjat : (sortedIdx (toLogits l)).getD pos 0 = j := by
        rw [List.getD_eq_getElem?_getD, List.getElem?_eq_getElem hpos]
        simpa using hget
      have hnotmask : ¬ maskedPos pexp (toLogits l) p pos := fun hm =>
        hjnr (hjat ▸ (removed_iff_masked pexp (toLogits l) p pos
          hposlen).mpr hm)
      have hposm : pos < m := by
        by_contra hge
        exact hnotmask (habove pos (by omega) (by omega))
      exact ⟨pos, Finset.mem_range.mpr hposm, hjat⟩
    · rintro ⟨pos, hposm, rfl⟩
      have hposm' := Finset.mem_range.mp hposm
      have hposlen : pos < (sortPairs (toLogits l)).length := by omega
      constructor
      · have := idxAt_lt (toLogits l) pos hposlen
        omega
      · intro hmem
        exact hbelow pos hposm'
          ((removed_iff_masked pexp (toLogits l) p pos hposlen).mp hmem)
  have hinj : ∀ x ∈ Finset.range m, ∀ y ∈ Finset.range m,
      (sortedIdx (toLogits l)).getD x 0 = (sortedIdx (toLogits l)).getD y 0
        → x = y := by
    intro x hx y hy h
    have hx' := Finset.mem_range.mp hx
    have hy' := Finset.mem_range.mp hy
    exact sortedIdx_getD_inj (toLogits l) x y (by omega) (by omega) h
  have hsum : (∑ i ∈ (Finset.range l.length).filter (fun i =>
        (top_k_top_p_filtering pexp (toLogits l) 0 p ⊥).getD i ⊥ ≠ ⊥),
        (softmax pexp (toLogits l)).getD i 0)
      = ((softmax pexp (sortedVals (toLogits l))).take m).sum := by
    rw [himg, Finset.sum_image hinj, sum_take_eq_range _ m (by omega)]
    apply Finset.sum_congr rfl
    intro pos hpos
    have hpos' := Finset.mem_range.mp hpos
    exact probs_at_sorted pexp (toLogits l) pos (by omega)
  -- the softmax probability of an entry is a function of its logit alone
  have hprobsfn : ∀ j, j < l.length →
      (softmax pexp (toLogits l)).getD j 0
        = pexp (l.getD j 0) / ((toLogits l).map (eexp pexp)).sum := by
    intro j hjn
    rw [softmax_getD pexp (toLogits l) j (by omega), coe_getD l j hjn,
      eexp_coe]
  -- the survivor at sorted position m-1 has the minimal logit value
  have hvalpos : ∀ pos, pos < m →
      l.getD ((sortedIdx (toLogits l)).getD (m - 1) 0) 0
        ≤ l.getD ((sortedIdx (toLogits l)).getD pos 0) 0 := by
    intro pos hpos
    have hposlen : pos < (sortPairs (toLogits l)).length := by omega
    have hm1len : m - 1 < (sortPairs (toLogits l)).length := by omega
    have h1 := idx_val_transfer (toLogits l) pos hposlen
    have h2 := idx_val_transfer (toLogits l) (m - 1) hm1len
    have h3 := sortedVals_anti (toLogits l) pos (m - 1) (by omega) (by omega)
    rw [← h1, ← h2] at h3
    have hplt : (sortedIdx (toLogits l)).getD pos 0 < l.length := by
      have := idxAt_lt (toLogits l) pos hposlen
      omega
    have hmlt : (sortedIdx (toLogits l)).getD (m - 1) 0 < l.length := by
      have := idxAt_lt (toLogits l) (m - 1) hm1len
      omega
    rw [coe_getD l _ hplt, coe_getD l _ hmlt] at h3
    exact_mod_cast h3
  refine ⟨?_, ?_, ?_, ?_⟩
  · rw [himg]
    exact ⟨_, Finset.mem_image.mpr ⟨0, Finset.mem_range.mpr (by omega), rfl⟩⟩
  · rw [hsum]
    exact le_of_lt hhi
  · refine ⟨(sortedIdx (toLogits l)).getD (m - 1) 0, ?_, ?_⟩
    · rw [himg]
      exact Finset.mem_image.mpr ⟨m - 1, Finset.mem_range.mpr (by omega), rfl⟩
    · intro i hi
      rw [himg] at hi
      obtain ⟨pos, hpos, rfl⟩ := Finset.mem_image.mp hi
      exact hvalpos pos (Finset.mem_range.mp hpos)
  · intro i0 hi0 hmin
    have hi0' := hi0
    rw [himg] at hi0'
    obtain ⟨pos0, hpos0, hσ⟩ := Finset.mem_image.mp hi0'
    have hpos0' := Finset.mem_range.mp hpos0
    have hmlS : (sortedIdx (toLogits l)).getD (m - 1) 0
        ∈ (Finset.range l.length).filter (fun i =>
          (top_k_top_p_filtering pexp (toLogits l) 0 p ⊥).getD i ⊥
            ≠ ⊥) := by
      rw [himg]
      exact Finset.mem_image.mpr
        ⟨m - 1, Finset.mem_range.mpr (by omega), rfl⟩
    -- `i0` and the position-(m-1) survivor hold the same logit value
    have hle1 : l.getD i0 0
        ≤ l.getD ((sortedIdx (toLogits l)).getD (m - 1) 0) 0 :=
      hmin _ hmlS
    have hle2 : l.getD ((sortedIdx (toLogits l)).getD (m - 1) 0) 0
        ≤ l.getD i0 0 := by
      rw [← hσ]
      exact hvalpos pos0 hpos0'
    have hveq : l.getD i0 0
        = l.getD ((sortedIdx (toLogits l)).getD (m - 1) 0) 0 :=
      le_antisymm hle1 hle2
    -- hence they carry the same softmax probability
    have hi0n : i0 < l.length := Finset.mem_range.mp (Finset.mem_filter.mp hi0).1
    have hm1n : (sortedIdx (toLogits l)).getD (m - 1) 0 < l.length := by
      have := idxAt_lt (toLogits l) (m - 1) (by omega)
      omega
    have hpeq : (softmax pexp (toLogits l)).getD i0 0
        = (softmax pexp (toLogits l)).getD
            ((sortedIdx (toLogits l)).getD (m - 1) 0) 0 := by
      rw [hprobsfn i0 hi0n, hprobsfn _ hm1n, hveq]
    have hadd := Finset.add_sum_erase _
      (fun i => (softmax pexp (toLogits l)).getD i 0) hi0
    have hprobsi0 : (softmax pexp (toLogits l)).getD i0 0
        = (softmax pexp (sortedVals (toLogits l))).getD (m - 1) 0 := by
      rw [hpeq]
      exact probs_at_sorted pexp (toLogits l) (m - 1) (by omega)
    have hstep : ((softmax pexp (sortedVals (toLogits l))).take m).sum
        = ((softmax pexp (sortedVals (toLogits l))).take (m - 1)).sum
          + (softmax pexp (sortedVals (toLogits l))).getD (m - 1) 0 := by
      have hm' : m - 1 + 1 = m := by omega
      have hlt : m - 1 < (softmax pexp (sortedVals (toLogits l))).length :=
        by omega
      have := List.sum_take_succ (softmax pexp (sortedVals (toLogits l)))
        (m - 1) hlt
      rw [hm'] at this
      rw [this]
      congr 1
      rw [List.getD_eq_getElem?_getD, List.getElem?_eq_getElem hlt]
      rfl
    simp only at hadd
    rw [hsum] at hadd
    rw [hprobsi0] at hadd
    have : (∑ i ∈ ((Finset.range l.length).filter (fun i =>
        (top_k_top_p_filtering pexp (toLogits l) 0 p ⊥).getD i ⊥
          ≠ ⊥)).erase i0,
        (softmax pexp (toLogits l)).getD i 0)
        = ((softmax pexp (sortedVals (toLogits l))).take (m - 1)).sum := by
      linarith [hstep, hadd]
    rw [this]
    exact hlo

/-- C3 (counterexample to strict minimality): with logits `[0, 0]` and
`p = 1/2` both entries survive (the cumulative probability of the first
sorted entry is exactly `1/2`, which does not *exceed* `p`), and removing
either survivor — in particular the lowest-ranked one — leaves a softmax
mass of exactly `1/2 = p`, which is **not** below `p`; the surviving set is
also not minimal, since the single top entry already reaches mass `p`. -/
theorem C3_counterexample :
    (0:ℚ) < 1/2 ∧ (1/2:ℚ) < 1 ∧ ([0, 0] : List ℚ) ≠ [] ∧
    (Finset.range ([0, 0] : List ℚ).length).filter (fun i =>
        (top_k_top_p_filtering (fun _ => 1) (toLogits [0, 0])
          0 (1/2) ⊥).getD i ⊥ ≠ ⊥) = {0, 1} ∧
    (∑ i ∈ ({0, 1} : Finset ℕ).erase 1,
        (softmax (fun _ => 1) (toLogits [0, 0])).getD i 0) = 1/2 ∧
    (∑ i ∈ ({0, 1} : Finset ℕ).erase 0,
        (softmax (fun _ => 1) (toLogits [0, 0])).getD i 0) = 1/2 := by
  have he0 : eexp (fun _ => (1:ℚ)) ((0:ℚ) : Logit) = 1 := rfl
  have h00 : toLogits [0, 0] = [((0:ℚ) : Logit), ((0:ℚ) : Logit)] := rfl
  have hlen2 : (toLogits ([0, 0] : List ℚ)).length = 2 := rfl
  have hZ : ((toLogits [0, 0]).map (eexp (fun _ => 1))).sum = 2 := by
    rw [h00, List.map_cons, List.map_cons, List.map_nil, he0]
    norm_num
  have hsv : ∀ x ∈ sortedVals (toLogits [0, 0]), x = ((0:ℚ) : Logit) := by
    intro x hx
    have hmem := (sortedVals_perm (toLogits [0, 0])).mem_iff.mp hx
    rw [h00] at hmem
    rcases List.mem_cons.mp hmem with h | h
    · exact h
    · rcases List.mem_cons.mp h with h' | h'
      · exact h'
      · cases h'
  have hsvlen : (sortedVals (toLogits ([0, 0] : List ℚ))).length = 2 := by
    rw [sortedVals_length, hlen2]
  have hsv0 : (sortedVals (toLogits [0, 0])).getD 0 ⊥ = ((0:ℚ) : Logit) :=
    hsv _ (getD_mem_any _ 0 ⊥ (by omega))
  have hps0 : (softmax (fun _ => 1)
      (sortedVals (toLogits [0, 0]))).getD 0 0 = 1/2 := by
    rw [ps_getD (fun _ => 1) (toLogits [0, 0]) 0 (by rw [hlen2]; omega),
      hsv0, he0, hZ]
  have hcum1 : ((softmax (fun _ => 1)
      (sortedVals (toLogits [0, 0]))).take 1).sum = 1/2 := by
    rw [sum_take_eq_range _ 1
      (by rw [softmax_length, sortedVals_length, hlen2]; omega),
      Finset.sum_range_one, hps0]
  have hrem : removedIdxs (fun _ => 1) (toLogits [0, 0]) (1/2) = [] := by
    rw [List.eq_nil_iff_forall_not_mem]
    intro j hj
    obtain ⟨pos, h, hm, _⟩ := (mem_removedIdxs _ _ _ j).mp hj
    have hpos2 : pos < 2 := by rw [sortPairs_length, hlen2] at h; exact h
    have hne0 := hm.1
    have hpos1 : pos = 1 := by omega
    rw [hpos1] at hm
    have hmlt := hm.2
    rw [hcum1] at hmlt
    exact lt_irrefl _ hmlt
  have hres : ∀ j, j < 2 →
      (top_k_top_p_filtering (fun _ => 1) (toLogits [0, 0])
        0 (1/2) ⊥).getD j ⊥ ≠ ⊥ := by
    intro j hj
    have hjL : j < (toLogits ([0, 0] : List ℚ)).length := by
      rw [hlen2]; omega
    have hjl : j < ([0, 0] : List ℚ).length := by simpa using hj
    rw [top_k_top_p_filtering, topKFilter_zero,
      topPFilter_getD _ _ _ _ (by norm_num) j hjL, hrem,
      if_neg (List.not_mem_nil j), coe_getD [0, 0] j hjl]
    exact WithBot.coe_ne_bot
  have hprobs : ∀ j, j < 2 →
      (softmax (fun _ => 1) (toLogits [0, 0])).getD j 0 = 1/2 := by
    intro j hj
    have hjL : j < (toLogits ([0, 0] : List ℚ)).length := by
      rw [hlen2]; omega
    have hjl : j < ([0, 0] : List ℚ).length := by simpa using hj
    have hg : ([0, 0] : List ℚ).getD j 0 = 0 := by
      interval_cases j <;> rfl
    rw [softmax_getD _ _ j hjL, hZ, coe_getD [0, 0] j hjl, hg, he0]
  refine ⟨by norm_num, by norm_num, List.cons_ne_nil _ _, ?_, ?_, ?_⟩
  · ext j
    rw [Finset.mem_filter, Finset.mem_range]
    constructor
    · rintro ⟨hj, _⟩
      have hj2 : j < 2 := by simpa using hj
      simp only [Finset.mem_insert, Finset.mem_singleton]
      omega
    · intro hj
      simp only [Finset.mem_insert, Finset.mem_singleton] at hj
      rcases hj with rfl | rfl
      · exact ⟨by norm_num, hres 0 (by norm_num)⟩
      · exact ⟨by norm_num, hres 1 (by norm_num)⟩
  · have h10 : ({0, 1} : Finset ℕ).erase 1 = {0} := by decide
    rw [h10, Finset.sum_singleton, hprobs 0 (by norm_num)]
  · have h01 : ({0, 1} : Finset ℕ).erase 0 = {1} := by decide
    rw [h01, Finset.sum_singleton, hprobs 1 (by norm_num)]

theorem C3_top_p_invariant_witness :
    (0:ℚ) < 1/2 ∧ (1/2:ℚ) < 1 ∧ ([1, 2] : List ℚ) ≠ [] ∧
    (((Finset.range ([1, 2] : List ℚ).length).filter (fun i =>
        (top_k_top_p_filtering (fun _ => 1) (toLogits [1, 2])
          0 (1/2) ⊥).getD i ⊥ ≠ ⊥)).Nonempty ∧
    (1/2 : ℚ) ≤ (∑ i ∈ (Finset.range ([1, 2] : List ℚ).length).filter
        (fun i => (top_k_top_p_filtering (fun _ => 1) (toLogits [1, 2])
          0 (1/2) ⊥).getD i ⊥ ≠ ⊥),
        (softmax (fun _ => 1) (toLogits [1, 2])).getD i 0) ∧
    (∃ i0 ∈ (Finset.range ([1, 2] : List ℚ).length).filter (fun i =>
        (top_k_top_p_filtering (fun _ => 1) (toLogits [1, 2])
          0 (1/2) ⊥).getD i ⊥ ≠ ⊥),
      ∀ i ∈ (Finset.range ([1, 2] : List ℚ).length).filter (fun i =>
        (top_k_top_p_filtering (fun _ => 1) (toLogits [1, 2])
          0 (1/2) ⊥).getD i ⊥ ≠ ⊥),
        ([1, 2] : List ℚ).getD i0 0 ≤ ([1, 2] : List ℚ).getD i 0) ∧
    ∀ i0 ∈ (Finset.range ([1, 2] : List ℚ).length).filter (fun i =>
        (top_k_top_p_filtering (fun _ => 1) (toLogits [1, 2])
          0 (1/2) ⊥).getD i ⊥ ≠ ⊥),
      (∀ i ∈ (Finset.range ([1, 2] : List ℚ).length).filter (fun i =>
        (top_k_top_p_filtering (fun _ => 1) (toLogits [1, 2])
          0 (1/2) ⊥).getD i ⊥ ≠ ⊥),
        ([1, 2] : List ℚ).getD i0 0 ≤ ([1, 2] : List ℚ).getD i 0) →
      (∑ i ∈ ((Finset.range ([1, 2] : List ℚ).length).filter (fun i =>
          (top_k_top_p_filtering (fun _ => 1) (toLogits [1, 2])
            0 (1/2) ⊥).getD i ⊥ ≠ ⊥)).erase i0,
        (softmax (fun _ => 1) (toLogits [1, 2])).getD i 0) ≤ 1/2) := by
  refine ⟨by norm_num, by norm_num, List.cons_ne_nil _ _, ?_⟩
  exact C3_top_p_invariant (fun _ => 1) (fun _ => one_pos) [1, 2]
    (List.cons_ne_nil _ _) (1/2) (by norm_num) (by norm_num)

/-! ## C8: composability infrastructure -/

theorem topKFilter_skip (l : List Logit) (k : ℕ) (fv : Logit)
    (hk : ¬ 0 < min k l.length) : topKFilter l k fv = l := by
  rw [topKFilter]
  simp only [hk, if_false]

/-- In a sorted list, the elements satisfying an upward-closed predicate
form the initial segment of length `countP`. -/
theorem sorted_filter_take {α : Type} (r : α → α → Prop) (L : List α)
    (hs : List.Sorted r L) (P : α → Bool)
    (hup : ∀ a b, r a b → P b = true → P a = true) :
    L.filter P = L.take (L.countP P) := by
  induction L with
  | nil => rfl
  | cons a rest ih =>
    rw [List.sorted_cons] at hs
    obtain ⟨hall, hrest⟩ := hs
    by_cases hPa : P a = true
    · rw [List.filter_cons_of_pos hPa, List.countP_cons_of_pos _ _ hPa,
        List.take_succ_cons, ih hrest]
    · have hnone : ∀ b ∈ rest, ¬ P b = true := fun b hb hPb =>
        hPa (hup a b (hall b hb) hPb)
      rw [List.filter_cons_of_neg hPa, List.countP_cons_of_neg _ _ hPa,
        List.filter_eq_nil_iff.mpr hnone,
        List.countP_eq_zero.mpr hnone]
      rfl

/-- Filtering two index-wise maps agreeing on the predicate and on the
retained values gives the same list. -/
theorem filter_map_congr {α β : Type} (P : β → Bool) (xs : List α)
    (f g : α → β)
    (h : ∀ i ∈ xs, P (f i) = P (g i) ∧ (P (f i) = true → f i = g i)) :
    (xs.map f).filter P = (xs.map g).filter P := by
  induction xs with
  | nil => rfl
  | cons a rest ih =>
    rw [List.map_cons, List.map_cons]
    obtain ⟨hPeq, himpl⟩ := h a (List.mem_cons_self a rest)
    have ihrest := ih (fun i hi => h i (List.mem_cons_of_mem a hi))
    by_cases hPa : P (f a) = true
    · rw [List.filter_cons_of_pos hPa,
        List.filter_cons_of_pos (hPeq ▸ hPa), himpl hPa, ihrest]
    · rw [List.filter_cons_of_neg hPa,
        List.filter_cons_of_neg (by rw [← hPeq]; exact hPa)]
      exact ihrest

theorem getD_map_eexp (pexp : ℚ → ℚ) (xs : List Logit) (i : ℕ)
    (hi : i < xs.length) :
    (xs.map (eexp pexp)).getD i 0 = eexp pexp (xs.getD i ⊥) := by
  rw [List.getD_eq_getElem?_getD,
    List.getElem?_eq_getElem (by simpa using hi), List.getElem_map,
    List.getD_eq_getElem?_getD, List.getElem?_eq_getElem hi]
  rfl

/-- The cumulative softmax mass of the first `pos` entries, written with a
common denominator. -/
theorem take_softmax_sum (pexp : ℚ → ℚ) (xs : List Logit) (pos : ℕ) :
    ((softmax pexp xs).take pos).sum
      = ((xs.take pos).map (eexp pexp)).sum / (xs.map (eexp pexp)).sum := by
  rw [softmax, ← List.map_take]
  have hcomp : (xs.take pos).map
      (fun x => eexp pexp x / (xs.map (eexp pexp)).sum)
      = ((xs.take pos).map (eexp pexp)).map
          (fun y => y / (xs.map (eexp pexp)).sum) := by
    rw [List.map_map]
    rfl
  rw [hcomp, sum_map_div]

/-- The pairs whose value reaches the top-k threshold. -/
def geP (th : Logit) : Logit × ℕ → Bool := fun pr => decide (th ≤ pr.1)

theorem geP_up (th : Logit) : ∀ a b : Logit × ℕ,
    pairGE a b → geP th b = true → geP th a = true := by
  intro a b hr hPb
  rw [geP, decide_eq_true_eq] at hPb ⊢
  rcases hr with hlt | ⟨heq, _⟩
  · exact le_trans hPb (le_of_lt hlt)
  · exact le_trans hPb (le_of_eq heq.symm)

theorem geP_true (th : Logit) (pr : Logit × ℕ) (h : th ≤ pr.1) :
    geP th pr = true := by
  rw [geP, decide_eq_true_eq]
  exact h

theorem geP_elim (th : Logit) (pr : Logit × ℕ) (h : geP th pr = true) :
    th ≤ pr.1 := by
  rw [geP, decide_eq_true_eq] at h
  exact h

/-- C8: applying top-k and then top-p keeps a subset (possibly equal) of the
entries kept by top-p alone on the same input: any index surviving the
composed filter also survives the nucleus filter applied directly. -/
theorem C8_composability (pexp : ℚ → ℚ) (hpexp : ∀ q, 0 < pexp q)
    (l : List ℚ) (k : ℕ) (p : ℚ) (hp0 : 0 < p) (hp1 : p < 1)
    (j : ℕ) (hj : j < l.length)
    (hsurv : (top_k_top_p_filtering pexp (toLogits l) k p ⊥).getD j ⊥ ≠ ⊥) :
    (top_k_top_p_filtering pexp (toLogits l) 0 p ⊥).getD j ⊥ ≠ ⊥ := by
  have hlen : (toLogits l).length = l.length := toLogits_length l
  have hn : 0 < l.length := by omega
  rw [top_k_top_p_filtering, topKFilter_zero]
  by_cases hkc : 0 < min k (toLogits l).length
  case neg =>
    rw [top_k_top_p_filtering, topKFilter_skip _ _ _ hkc] at hsurv
    exact hsurv
  case pos =>
  have hminle : min k (toLogits l).length ≤ (toLogits l).length :=
    min_le_right _ _
  have hl'len2 : (topKFilter (toLogits l) k ⊥).length
      = (toLogits l).length := topKFilter_length _ _ _
  have hAlen : (sortPairs (topKFilter (toLogits l) k ⊥)).length
      = l.length := by
    rw [sortPairs_length, hl'len2, hlen]
  have hBlen : (sortPairs (toLogits l)).length = l.length := by
    rw [sortPairs_length, hlen]
  -- the threshold is a finite entry of the vector
  have hthmem : kthLargest (toLogits l) (min k (toLogits l).length)
      ∈ sortedVals (toLogits l) := by
    rw [kthLargest]
    apply getD_mem_any
    rw [sortedVals_length, hlen]
    omega
  have hthbot0 : kthLargest (toLogits l) (min k (toLogits l).length)
      ≠ ⊥ := by
    have hmem := (sortedVals_perm (toLogits l)).mem_iff.mp hthmem
    have hmem2 : kthLargest (toLogits l) (min k (toLogits l).length)
        ∈ l.map (fun q : ℚ => (q : Logit)) := hmem
    obtain ⟨q, _, hq⟩ := List.mem_map.mp hmem2
    rw [← hq]
    exact WithBot.coe_ne_bot
  obtain ⟨th, hth, hthbot⟩ : ∃ th,
      kthLargest (toLogits l) (min k (toLogits l).length) = th ∧ th ≠ ⊥ :=
    ⟨_, rfl, hthbot0⟩
  -- the pairs reaching the threshold agree between the two vectors
  have hcond : ∀ i ∈ List.range (toLogits l).length,
      geP th ((topKFilter (toLogits l) k ⊥).getD i ⊥, i)
        = geP th ((toLogits l).getD i ⊥, i) ∧
      (geP th ((topKFilter (toLogits l) k ⊥).getD i ⊥, i) = true →
        ((topKFilter (toLogits l) k ⊥).getD i ⊥, i)
          = ((toLogits l).getD i ⊥, i)) := by
    intro i hi
    have hiL : i < (toLogits l).length := List.mem_range.mp hi
    have hh := topKFilter_getD (toLogits l) k ⊥ hkc i hiL
    rw [hth] at hh
    by_cases hlt : (toLogits l).getD i ⊥ < th
    · have hb : (topKFilter (toLogits l) k ⊥).getD i ⊥ = ⊥ := by
        rw [hh, if_pos hlt]
      have hfalse1 : ¬ (th ≤ (⊥ : Logit)) :=
        fun hc => hthbot (le_bot_iff.mp hc)
      have hfalse2 : ¬ (th ≤ (toLogits l).getD i ⊥) := not_le.mpr hlt
      constructor
      · rw [hb, geP, geP]
        simp only [decide_eq_decide]
        exact iff_of_false hfalse1 hfalse2
      · intro habs
        rw [hb] at habs
        exact absurd (geP_elim _ _ habs) hfalse1
    · have hb : (topKFilter (toLogits l) k ⊥).getD i ⊥
          = (toLogits l).getD i ⊥ := by
        rw [hh, if_neg hlt]
      rw [hb]
      exact ⟨rfl, fun _ => rfl⟩
  have hff : (pairsOf (topKFilter (toLogits l) k ⊥)).filter (geP th)
      = (pairsOf (toLogits l)).filter (geP th) := by
    rw [pairsOf_eq_range_map, pairsOf_eq_range_map, hl'len2]
    exact filter_map_congr (geP th) (List.range (toLogits l).length)
      _ _ hcond
  have hfA : (sortPairs (topKFilter (toLogits l) k ⊥)).filter (geP th)
      = (sortPairs (topKFilter (toLogits l) k ⊥)).take
          ((sortPairs (topKFilter (toLogits l) k ⊥)).countP (geP th)) :=
    sorted_filter_take pairGE _ (sortPairs_sorted _) _ (geP_up _)
  have hfB : (sortPairs (toLogits l)).filter (geP th)
      = (sortPairs (toLogits l)).take
          ((sortPairs (toLogits l)).countP (geP th)) :=
    sorted_filter_take pairGE _ (sortPairs_sorted _) _ (geP_up _)
  have hcA : (sortPairs (topKFilter (toLogits l) k ⊥)).countP (geP th)
      = (sortPairs (toLogits l)).countP (geP th) := by
    rw [(sortPairs_perm (topKFilter (toLogits l) k ⊥)).countP_eq,
      (sortPairs_perm (toLogits l)).countP_eq,
      List.countP_eq_length_filter, List.countP_eq_length_filter, hff]
  have hfAB : (sortPairs (topKFilter (toLogits l) k ⊥)).filter (geP th)
      = (sortPairs (toLogits l)).filter (geP th) := by
    refine List.eq_of_perm_of_sorted ?_
      ((sortPairs_sorted _).filter _) ((sortPairs_sorted _).filter _)
    have p1 : ((sortPairs (topKFilter (toLogits l) k ⊥)).filter
          (geP th)).Perm
        ((pairsOf (topKFilter (toLogits l) k ⊥)).filter (geP th)) :=
      (sortPairs_perm _).filter _
    have p2 : ((pairsOf (topKFilter (toLogits l) k ⊥)).filter
          (geP th)).Perm ((sortPairs (toLogits l)).filter (geP th)) := by
      rw [hff]
      exact ((sortPairs_perm (toLogits l)).filter _).symm
    exact p1.trans p2
  have htake : (sortPairs (topKFilter (toLogits l) k ⊥)).take
        ((sortPairs (toLogits l)).countP (geP th))
      = (sortPairs (toLogits l)).take
        ((sortPairs (toLogits l)).countP (geP th)) := by
    rw [hcA] at hfA
    rw [← hfA, hfAB, hfB]
  have ht1 : 0 < (sortPairs (toLogits l)).countP (geP th) := by
    have hcount := take_count_ge (toLogits l)
      (min k (toLogits l).length) hkc (by omega) (geP th)
      (fun pr h => geP_true _ pr (hth ▸ h))
      (fun pr h => hth ▸ geP_elim _ pr h)
    omega
  have htn : (sortPairs (toLogits l)).countP (geP th) ≤ l.length :=
    le_trans (List.countP_le_length _) (le_of_eq hBlen)
  -- the filtered vector still has positive total mass, not exceeding Z
  have hZ'pos : 0 < ((topKFilter (toLogits l) k ⊥).map (eexp pexp)).sum := by
    apply zsum_pos pexp hpexp
    obtain ⟨hj0lt, hj0val⟩ := headIdx_spec (toLogits l) (by omega)
    refine ⟨(topKFilter (toLogits l) k ⊥).getD (headIdx (toLogits l)) ⊥,
      getD_mem_any _ _ ⊥ (by omega), ?_⟩
    rw [topKFilter_getD_keep (toLogits l) k ⊥ _ hj0lt ?_]
    · rw [coe_getD l _ (by omega)]
      exact WithBot.coe_ne_bot
    · rw [hj0val]
      exact not_lt.mpr (kthLargest_le_max (toLogits l) _ (by omega) hminle)
  have hZZ : ((topKFilter (toLogits l) k ⊥).map (eexp pexp)).sum
      ≤ ((toLogits l).map (eexp pexp)).sum := by
    have hmaplen1 : ((topKFilter (toLogits l) k ⊥).map (eexp pexp)).length
        = l.length := by rw [List.length_map, hl'len2, hlen]
    have hmaplen2 : ((toLogits l).map (eexp pexp)).length = l.length := by
      rw [List.length_map, hlen]
    have h1 : ((topKFilter (toLogits l) k ⊥).map (eexp pexp)).sum
        = ∑ i ∈ Finset.range l.length,
          ((topKFilter (toLogits l) k ⊥).map (eexp pexp)).getD i 0 := by
      conv_lhs => rw [← List.take_of_length_le (le_of_eq hmaplen1)]
      rw [sum_take_eq_range _ _ (le_of_eq hmaplen1.symm)]
    have h2 : ((toLogits l).map (eexp pexp)).sum
        = ∑ i ∈ Finset.range l.length,
          ((toLogits l).map (eexp pexp)).getD i 0 := by
      conv_lhs => rw [← List.take_of_length_le (le_of_eq hmaplen2)]
      rw [sum_take_eq_range _ _ (le_of_eq hmaplen2.symm)]
    rw [h1, h2]
    apply Finset.sum_le_sum
    intro i hi
    have hi' : i < l.length := Finset.mem_range.mp hi
    rw [getD_map_eexp pexp _ i (by omega), getD_map_eexp pexp _ i (by omega)]
    rcases topKFilter_getD_cases (toLogits l) k ⊥ i (by omega)
      with hcase | hcase
    · rw [hcase]
    · rw [hcase, eexp_bot]
      exact eexp_nonneg pexp hpexp _
  -- unpack the composed survivor
  have hsurv' : (topPFilter pexp (topKFilter (toLogits l) k ⊥) p ⊥).getD j ⊥
      ≠ ⊥ := by
    rw [top_k_top_p_filtering] at hsurv
    exact hsurv
  obtain ⟨hnotrem', hl'j⟩ :=
    (topP_surv_iff pexp _ p hp0 j (by omega)).mp hsurv'
  have hkeepj : (topKFilter (toLogits l) k ⊥).getD j ⊥
        = (toLogits l).getD j ⊥ ∧
      ¬ (toLogits l).getD j ⊥ < th := by
    have hh := topKFilter_getD (toLogits l) k ⊥ hkc j (by omega)
    rw [hth] at hh
    by_cases hlt : (toLogits l).getD j ⊥ < th
    · rw [if_pos hlt] at hh
      exact (hl'j hh).elim
    · rw [if_neg hlt] at hh
      exact ⟨hh, hlt⟩
  -- find j's sorted position inside the common prefix
  have hPj : geP th ((toLogits l).getD j ⊥, j) = true :=
    geP_true _ _ (not_lt.mp hkeepj.2)
  have hmemfil : ((toLogits l).getD j ⊥, j)
      ∈ (sortPairs (toLogits l)).filter (geP th) :=
    List.mem_filter.mpr ⟨mem_sortPairs _ j (by omega), hPj⟩
  rw [hfB] at hmemfil
  obtain ⟨⟨pos, hpos⟩, hget⟩ := List.mem_iff_get.mp hmemfil
  have hpos' := hpos
  rw [List.length_take] at hpos'
  have hpost : pos < (sortPairs (toLogits l)).countP (geP th) := by
    omega
  have hposB : pos < (sortPairs (toLogits l)).length := by omega
  have hgetB : (sortPairs (toLogits l)).get ⟨pos, hposB⟩
      = ((toLogits l).getD j ⊥, j) := by
    rw [← hget]
    simp only [List.get_eq_getElem, List.getElem_take]
  have hposA : pos < (sortPairs (topKFilter (toLogits l) k ⊥)).length := by
    omega
  have hgetA : (sortPairs (topKFilter (toLogits l) k ⊥)).get ⟨pos, hposA⟩
      = ((toLogits l).getD j ⊥, j) := by
    have e1 := List.get_of_eq htake ⟨pos, by rw [List.length_take]; omega⟩
    have e2 : ((sortPairs (topKFilter (toLogits l) k ⊥)).take
          ((sortPairs (toLogits l)).countP (geP th))).get
          ⟨pos, by rw [List.length_take]; omega⟩
        = (sortPairs (topKFilter (toLogits l) k ⊥)).get ⟨pos, hposA⟩ := by
      simp only [List.get_eq_getElem, List.getElem_take]
    have e3 : ((sortPairs (toLogits l)).take
          ((sortPairs (toLogits l)).countP (geP th))).get
          ⟨pos, by rw [List.length_take]; omega⟩
        = (sortPairs (toLogits l)).get ⟨pos, hposB⟩ := by
      simp only [List.get_eq_getElem, List.getElem_take]
    rw [← e2, e1]
    rw [← hgetB, ← e3]
  have hidxA : (sortedIdx (topKFilter (toLogits l) k ⊥)).getD pos 0 = j := by
    rw [sortedIdx_getD_eq _ pos hposA, hgetA]
  have hidxB : (sortedIdx (toLogits l)).getD pos 0 = j := by
    rw [sortedIdx_getD_eq _ pos hposB, hgetB]
  have hnm' : ¬ maskedPos pexp (topKFilter (toLogits l) k ⊥) p pos :=
    fun hm => hnotrem'
      (hidxA ▸ (removed_iff_masked pexp _ p pos hposA).mpr hm)
  -- transfer unmaskedness from the filtered vector to the original
  have hnm : ¬ maskedPos pexp (toLogits l) p pos := by
    intro hm
    apply hnm'
    refine ⟨hm.1, ?_⟩
    have hA : (sortPairs (topKFilter (toLogits l) k ⊥)).take pos
        = (sortPairs (toLogits l)).take pos := by
      have e1 : (sortPairs (topKFilter (toLogits l) k ⊥)).take pos
          = ((sortPairs (topKFilter (toLogits l) k ⊥)).take
              ((sortPairs (toLogits l)).countP (geP th))).take pos := by
        rw [List.take_take, min_eq_left (le_of_lt hpost)]
      have e2 : (sortPairs (toLogits l)).take pos
          = ((sortPairs (toLogits l)).take
              ((sortPairs (toLogits l)).countP (geP th))).take pos := by
        rw [List.take_take, min_eq_left (le_of_lt hpost)]
      rw [e1, e2, htake]
    have hsvtake : (sortedVals (topKFilter (toLogits l) k ⊥)).take pos
        = (sortedVals (toLogits l)).take pos := by
      rw [sortedVals, sortedVals, ← List.map_take, ← List.map_take, hA]
    have hcum : ((softmax pexp (sortedVals (toLogits l))).take pos).sum
        ≤ ((softmax pexp
            (sortedVals (topKFilter (toLogits l) k ⊥))).take pos).sum := by
      rw [take_softmax_sum, take_softmax_sum, hsvtake,
        zsum_sorted, zsum_sorted]
      exact div_le_div_of_nonneg_left (zsum_nonneg pexp hpexp _) hZ'pos hZZ
    exact lt_of_lt_of_le hm.2 hcum
  -- hence j is also kept by top-p alone
  have hnotremB : j ∉ removedIdxs pexp (toLogits l) p := by
    intro hmem
    obtain ⟨pos', h', hm', hj2⟩ :=
      (mem_removedIdxs pexp (toLogits l) p j).mp hmem
    have heq : (sortedIdx (toLogits l)).getD pos' 0
        = (sortedIdx (toLogits l)).getD pos 0 := by
      rw [sortedIdx_getD_eq _ pos' h', hj2, hidxB]
    rw [sortedIdx_getD_inj _ pos' pos h' hposB heq] at hm'
    exact hnm hm'
  refine (topP_surv_iff pexp (toLogits l) p hp0 j (by omega)).mpr
    ⟨hnotremB, ?_⟩
  rw [coe_getD l j hj]
  exact WithBot.coe_ne_bot

theorem C8_composability_witness :
    (0:ℚ) < 1/2 ∧ (1/2:ℚ) < 1 ∧ 1 < ([5, 7] : List ℚ).length ∧
    (top_k_top_p_filtering (fun _ => 1) (toLogits [5, 7])
      0 (1/2) ⊥).getD 1 ⊥ ≠ ⊥ := by
  have hx : ∃ x ∈ toLogits [5, 7], x ≠ ⊥ := by
    refine ⟨((5:ℚ) : Logit), ?_, WithBot.coe_ne_bot⟩
    simp [toLogits]
  obtain ⟨i, hi, hmax, hfix, hne⟩ :=
    max_survives (fun _ => 1) (toLogits [5, 7]) hx 1 (1/2)
  have h7 : ((7:ℚ) : Logit) ∈ toLogits [5, 7] := by
    simp [toLogits]
  have h75 := hmax _ h7
  have hi2 : i < 2 := by simpa [toLogits_length] using hi
  have hi1 : i = 1 := by
    interval_cases i
    · exfalso
      rw [coe_getD [5, 7] 0 (by norm_num)] at h75
      have hle : (7:ℚ) ≤ ([5, 7] : List ℚ).getD 0 0 := by
        exact_mod_cast h75
      have hv : ([5, 7] : List ℚ).getD 0 0 = 5 := rfl
      rw [hv] at hle
      norm_num at hle
    · rfl
  rw [hi1] at hfix hne
  refine ⟨by norm_num, by norm_num, by norm_num, ?_⟩
  exact C8_composability (fun _ => 1) (fun _ => one_pos) [5, 7] 1 (1/2)
    (by norm_num) (by norm_num) 1 (by norm_num)
    (by rw [hfix]; exact hne)

end TextGen
